import Mathlib

/-!
Verification of the nexaclient repository: the TOON text format
(serializer and parser from `src/toon.js`) and the NexaDB binary protocol
client (`index.js`: frame encoding, stream reassembly, FIFO request
correlation, connection close handling).

JavaScript strings are modelled as Lean strings over their character
sequences (`String.data`); JavaScript numbers are modelled as exact
integers (`Int`).  Non-integral IEEE doubles are outside the embedding:
the single parser branch that would produce one is modelled as a failure
and is not exercised by any theorem below.  Recursive loops are given
explicit fuel; every wrapper supplies more fuel than the corresponding
source loop can consume, as noted at each wrapper.
-/

namespace Nexa

/-- Characters treated as whitespace by JavaScript `trim`/`trimStart`:
the WhiteSpace production (TAB, VT, FF, SPACE, NBSP, BOM and the Unicode
Zs spaces U+1680, U+2000–U+200A, U+202F, U+205F, U+3000) plus the
LineTerminator characters (LF, CR, U+2028, U+2029). -/
def jsWhitespace (c : Char) : Bool :=
  let n := c.toNat
  n == 0x9 || n == 0xA || n == 0xB || n == 0xC || n == 0xD || n == 0x20 ||
  n == 0xA0 || n == 0x1680 || (decide (0x2000 ≤ n) && decide (n ≤ 0x200A)) ||
  n == 0x2028 || n == 0x2029 || n == 0x202F || n == 0x205F || n == 0x3000 ||
  n == 0xFEFF

def jsTrimLeftList (l : List Char) : List Char := l.dropWhile jsWhitespace

def jsTrimRightList (l : List Char) : List Char :=
  (l.reverse.dropWhile jsWhitespace).reverse

def jsTrimList (l : List Char) : List Char := jsTrimRightList (jsTrimLeftList l)

/-- JavaScript `String.prototype.trim`. -/
def jsTrim (s : String) : String := ⟨jsTrimList s.data⟩

/-- JavaScript `String.prototype.trimStart`. -/
def jsTrimStart (s : String) : String := ⟨jsTrimLeftList s.data⟩

/-- JavaScript `s.length` (character count; all text here is in the BMP). -/
def jsLength (s : String) : Nat := s.data.length

/-- JavaScript `str.split(sep)` for a one-character separator, on character
lists. -/
def splitChar (c : Char) : List Char → List (List Char)
  | [] => [[]]
  | ch :: rest =>
    if ch = c then [] :: splitChar c rest
    else
      match splitChar c rest with
      | [] => [[ch]]
      | h :: t => (ch :: h) :: t

/-- JavaScript `str.split(sep)` for a one-character separator. -/
def jsSplit (s : String) (c : Char) : List String :=
  (splitChar c s.data).map String.mk

/-- JavaScript `Array.prototype.join(sep)` (also used for the template
strings `lines.join('\n')` of the serializer). -/
def joinSep (sep : String) : List String → String
  | [] => ""
  | [s] => s
  | s :: rest => s ++ sep ++ joinSep sep rest

/-- JavaScript `String.prototype.includes` for a one-character needle. -/
def jsIncludes (s : String) (c : Char) : Bool := s.data.contains c

/-- JavaScript `String.prototype.indexOf` for a one-character needle:
index of the first occurrence, `-1` if absent. -/
def jsIndexOf (s : String) (c : Char) : Int :=
  if s.data.contains c then (s.data.findIdx (· = c) : Int) else -1

/-- JavaScript `str.substring(a, b)`: both ends are clamped to
`[0, length]` and swapped when `a > b`. -/
def jsSubstring (s : String) (a b : Int) : String :=
  let len : Int := (s.data.length : Int)
  let ca : Nat := (max 0 (min a len)).toNat
  let cb : Nat := (max 0 (min b len)).toNat
  let lo := min ca cb
  let hi := max ca cb
  ⟨(s.data.drop lo).take (hi - lo)⟩

/-- JavaScript `str.substring(a)` (up to the end of the string). -/
def jsSubstringFrom (s : String) (a : Int) : String :=
  jsSubstring s a (s.data.length : Int)

/-- Value of a list of decimal digit characters, most significant first. -/
def digitsToNat (l : List Char) : Nat :=
  l.foldl (fun a c => a * 10 + (c.toNat - 48)) 0

/-- Hexadecimal digit test for `parseInt`'s `0x`/`0X` prefix handling. -/
def hexDigitChar (c : Char) : Bool :=
  c.isDigit || ('a' ≤ c && c ≤ 'f') || ('A' ≤ c && c ≤ 'F')

/-- Value of a list of hexadecimal digit characters, most significant
first. -/
def hexDigitsToNat (l : List Char) : Nat :=
  l.foldl (fun a c => a * 16 +
    (if c.isDigit then c.toNat - 48 else if 'a' ≤ c then c.toNat - 87
     else c.toNat - 55)) 0

/-- JavaScript `parseInt(str)` with no radix argument: leading whitespace
is skipped, an optional sign is read, a `0x`/`0X` prefix switches to
radix 16, then a maximal run of digits of the radix; `none` models `NaN`
(no digits). -/
def jsParseInt (s : String) : Option Int :=
  let l := jsTrimLeftList s.data
  let signAndRest : Int × List Char :=
    match l with
    | '-' :: rest => (-1, rest)
    | '+' :: rest => (1, rest)
    | _ => (1, l)
  match signAndRest.2 with
  | '0' :: 'x' :: rest =>
    let hs := rest.takeWhile hexDigitChar
    if hs.isEmpty then none else some (signAndRest.1 * (hexDigitsToNat hs : Int))
  | '0' :: 'X' :: rest =>
    let hs := rest.takeWhile hexDigitChar
    if hs.isEmpty then none else some (signAndRest.1 * (hexDigitsToNat hs : Int))
  | r =>
    let ds := r.takeWhile Char.isDigit
    if ds.isEmpty then none else some (signAndRest.1 * (digitsToNat ds : Int))

/-- Decimal digits of `n`, most significant first ( `[]` for `n = 0`);
`fuel` bounds the digit count and any `fuel ≥ n` is enough. -/
def natToDecAux : Nat → Nat → List Char
  | 0, _ => []
  | fuel+1, n =>
    if n = 0 then []
    else natToDecAux fuel (n / 10) ++ [Char.ofNat (48 + n % 10)]

/-- Decimal rendering of a natural number, as JavaScript `String(n)`. -/
def natToDec (n : Nat) : String :=
  if n = 0 then "0" else ⟨natToDecAux (n + 1) n⟩

/-- JavaScript `String(i)` for an integral number. -/
def intToDec (i : Int) : String :=
  if i < 0 then "-" ++ natToDec i.natAbs else natToDec i.natAbs

/-- The open-brace character (written by code point so that no literal
brace appears in the file's strings). -/
def lbrace : Char := Char.ofNat 123

/-- The close-brace character. -/
def rbrace : Char := Char.ofNat 125

/-- A JSON-like value tree: the payloads `TOONSerializer.serialize`
accepts.  JavaScript numbers are restricted to exact integers (see the
module comment). -/
inductive Node where
  | null : Node
  | bool (b : Bool) : Node
  | int (n : Int) : Node
  | str (s : String) : Node
  | arr (elems : List Node) : Node
  | obj (entries : List (String × Node)) : Node
deriving Repr

/-- `' '.repeat(n)`. -/
def indentStr (n : Nat) : String := ⟨List.replicate n ' '⟩

/-- `typeof item === 'object' && item !== null && !Array.isArray(item)`. -/
def isObjNode : Node → Bool
  | .obj _ => true
  | _ => false

/-- `typeof item !== 'object' || item === null`. -/
def isPrimNode : Node → Bool
  | .obj _ => false
  | .arr _ => false
  | _ => true

/-- The entry list of a mapping node (only applied to mappings). -/
def objEntries : Node → List (String × Node)
  | .obj kvs => kvs
  | _ => []

/-- The ordered key union of `_serializeArrayWithKey` /
`_serializeTabularArray`: keys in first-seen order, deduplicated. -/
def unionKeys (items : List (List (String × Node))) : List String :=
  items.foldl
    (fun acc item =>
      item.foldl (fun acc2 kv => if acc2.contains kv.1 then acc2 else acc2 ++ [kv.1]) acc)
    []

/-- JavaScript property lookup `item[field]` (`none` is `undefined`). -/
def cellValue (item : List (String × Node)) (field : String) : Option Node :=
  (item.find? (fun kv => kv.1 = field)).map (·.2)

/-- Hex digit character (lowercase), for JSON `\u` escapes. -/
def hexDigit (n : Nat) : Char :=
  if n < 10 then Char.ofNat (48 + n) else Char.ofNat (87 + n)

/-- JSON escaping of one character inside a `JSON.stringify` string. -/
def jsonEscapeChar (c : Char) : List Char :=
  if c = '"' then ['\\', '"']
  else if c = '\\' then ['\\', '\\']
  else if c = '\n' then ['\\', 'n']
  else if c = '\r' then ['\\', 'r']
  else if c = '\t' then ['\\', 't']
  else if c = Char.ofNat 8 then ['\\', 'b']
  else if c = Char.ofNat 12 then ['\\', 'f']
  else if c.toNat < 32 then
    ['\\', 'u', '0', '0', hexDigit (c.toNat / 16), hexDigit (c.toNat % 16)]
  else [c]

/-- `JSON.stringify` applied to a string value. -/
def jsonStringify (s : String) : String :=
  ⟨'"' :: s.data.flatMap jsonEscapeChar ++ ['"']⟩

/-- JavaScript `String(value)` coercion: the fallback of
`_serializePrimitive`.  Array elements render recursively with null and
undefined becoming empty; fuel bounds the nesting depth. -/
def jsToStringF : Nat → Node → String
  | 0, _ => ""
  | fuel+1, v =>
    match v with
    | .null => "null"
    | .bool b => if b then "true" else "false"
    | .int n => intToDec n
    | .str s => s
    | .obj _ => "[object Object]"
    | .arr xs =>
      joinSep ","
        (xs.map fun e =>
          match e with
          | .null => ""
          | e' => jsToStringF fuel e')

/-- `TOONSerializer._serializePrimitive`.  The `fuel` is only consumed by
the `String(value)` fallback on non-primitive input (nested values inside
tabular rows); on scalars the result is fuel-independent. -/
def serializePrimitive (fuel : Nat) : Node → String
  | .null => "null"
  | .bool b => if b then "true" else "false"
  | .str s =>
    if jsIncludes s ',' || jsIncludes s '\n' || jsIncludes s '"' then jsonStringify s
    else s
  | .int n => intToDec n
  | v => jsToStringF fuel v

/-- One tabular cell: `_serializePrimitive(item[field])`, where a missing
field is `undefined` and renders as the null token. -/
def serializeCell (fuel : Nat) (item : List (String × Node)) (field : String) : String :=
  match cellValue item field with
  | some v => serializePrimitive fuel v
  | none => "null"

/-- Call tags for the mutually recursive serializer methods of
`TOONSerializer`; a single fueled function interprets them so that the
recursion is structural (on fuel) and kernel-reducible. -/
inductive SerCall where
  | node (data : Node) (indentLevel : Nat)
  | objOf (entries : List (String × Node)) (indentLevel : Nat)
  | arrWithKey (key : String) (arr : List Node) (indentLevel : Nat)
  | arrOf (arr : List Node) (indentLevel : Nat)

/-- The body of `TOONSerializer.serialize` / `_serializeObject` /
`_serializeArrayWithKey` / `_serializeArray` / `_serializeTabularArray`,
with indent size `sz`.  Each recursive step consumes one unit of fuel;
the wrappers below supply more fuel than any input can consume. -/
def serializeAux (sz : Nat) : Nat → SerCall → String
  | 0, _ => ""
  | fuel+1, c =>
    match c with
    | .node d lvl =>
      match d with
      | .obj kvs => serializeAux sz fuel (.objOf kvs lvl)
      | .arr xs => serializeAux sz fuel (.arrOf xs lvl)
      | d' => serializePrimitive fuel d'
    | .objOf kvs lvl =>
      let indent := indentStr (lvl * sz)
      joinSep "\n"
        (kvs.flatMap fun kv =>
          match kv.2 with
          | .obj kvs' => [indent ++ kv.1 ++ ":", serializeAux sz fuel (.objOf kvs' (lvl + 1))]
          | .arr xs => [indent ++ serializeAux sz fuel (.arrWithKey kv.1 xs lvl)]
          | v => [indent ++ kv.1 ++ ": " ++ serializePrimitive fuel v])
    | .arrWithKey key xs lvl =>
      if xs.length = 0 then key ++ "[0]:"
      else
        let allKeys := unionKeys (xs.map objEntries)
        if xs.all isObjNode && !allKeys.isEmpty then
          let fields := joinSep "," allKeys
          let indent := indentStr ((lvl + 1) * sz)
          joinSep "\n"
            ((key ++ "[" ++ natToDec xs.length ++ "]" ++
                String.mk [lbrace] ++ fields ++ String.mk [rbrace] ++ ":") ::
              xs.map fun item =>
                indent ++ joinSep "," (allKeys.map (serializeCell fuel (objEntries item))))
        else if xs.all isPrimNode then
          key ++ "[" ++ natToDec xs.length ++ "]: " ++
            joinSep "," (xs.map (serializePrimitive fuel))
        else
          joinSep "\n"
            ((key ++ "[" ++ natToDec xs.length ++ "]:") ::
              xs.map fun item =>
                indentStr ((lvl + 1) * sz) ++ serializeAux sz fuel (.node item (lvl + 1)))
    | .arrOf xs lvl =>
      if xs.length = 0 then "[]"
      else if xs.all isObjNode then
        let allKeys := unionKeys (xs.map objEntries)
        let indent := indentStr (lvl * sz)
        joinSep "\n"
          (xs.map fun item =>
            indent ++ joinSep "," (allKeys.map (serializeCell fuel (objEntries item))))
      else if xs.all isPrimNode then
        joinSep "," (xs.map (serializePrimitive fuel))
      else
        joinSep "\n"
          (xs.map fun item => indentStr (lvl * sz) ++ serializeAux sz fuel (.node item (lvl + 1)))

mutual
/-- Structural weight of a node, used only to compute serializer fuel. -/
def nodeWeight : Node → Nat
  | .null => 1
  | .bool _ => 1
  | .int _ => 1
  | .str _ => 1
  | .arr xs => 1 + nodeListWeight xs
  | .obj kvs => 1 + entriesWeight kvs

/-- Structural weight of a node list. -/
def nodeListWeight : List Node → Nat
  | [] => 0
  | x :: xs => 1 + nodeWeight x + nodeListWeight xs

/-- Structural weight of a mapping entry list. -/
def entriesWeight : List (String × Node) → Nat
  | [] => 0
  | kv :: kvs => 1 + nodeWeight kv.2 + entriesWeight kvs
end

/-- Fuel for serializing `d`: the serializer consumes at most two fuel
units per node level, so this always suffices. -/
def serFuel (d : Node) : Nat := 2 * nodeWeight d + 2

/-- `new TOONSerializer(sz).serialize(data)` (indent size `sz`). -/
def serializeWith (sz : Nat) (data : Node) : String :=
  serializeAux sz (serFuel data) (.node data 0)

/-- `new TOONSerializer().serialize(data)` (default indent size 2). -/
def serializeToon (data : Node) : String := serializeWith 2 data

/-! ## The TOON parser (`TOONParser` in `src/toon.js`) -/

/-- Hex digit value for JSON `\u` escapes. -/
def hexVal (c : Char) : Option Nat :=
  if '0' ≤ c ∧ c ≤ '9' then some (c.toNat - 48)
  else if 'a' ≤ c ∧ c ≤ 'f' then some (c.toNat - 87)
  else if 'A' ≤ c ∧ c ≤ 'F' then some (c.toNat - 55)
  else none

/-- Decode the body of a JSON string literal after its opening quote; the
closing quote must end the input (`JSON.parse` rejects trailing text).
`none` models a thrown `SyntaxError`. -/
def jsonStringRest : List Char → Option (List Char)
  | [] => none
  | '"' :: rest => if rest.isEmpty then some [] else none
  | '\\' :: 'u' :: h1 :: h2 :: h3 :: h4 :: rest => do
    let a ← hexVal h1
    let b ← hexVal h2
    let c ← hexVal h3
    let d ← hexVal h4
    let tail ← jsonStringRest rest
    pure (Char.ofNat (((a * 16 + b) * 16 + c) * 16 + d) :: tail)
  | '\\' :: e :: rest => do
    let d ←
      if e = '"' then some '"'
      else if e = '\\' then some '\\'
      else if e = '/' then some '/'
      else if e = 'n' then some '\n'
      else if e = 't' then some '\t'
      else if e = 'r' then some '\r'
      else if e = 'b' then some (Char.ofNat 8)
      else if e = 'f' then some (Char.ofNat 12)
      else none
    let tail ← jsonStringRest rest
    pure (d :: tail)
  | '\\' :: [] => none
  | c :: rest =>
    if c.toNat < 32 then none
    else do
      let tail ← jsonStringRest rest
      pure (c :: tail)

/-- `JSON.parse(s)` as `_parsePrimitive` calls it: `s` starts and ends
with a double quote, so a successful parse yields a string. -/
def jsonParseString (s : String) : Option String :=
  match s.data with
  | '"' :: rest => (jsonStringRest rest).map String.mk
  | _ => none

/-- The numeric-literal test `/^-?\d+(\.\d+)?$/`. -/
def matchesNumber (s : String) : Bool :=
  let l := match s.data with
    | '-' :: rest => rest
    | l => l
  let ds := l.takeWhile Char.isDigit
  let rest := l.dropWhile Char.isDigit
  !ds.isEmpty &&
    (rest.isEmpty ||
      (match rest with
       | '.' :: frac => !frac.isEmpty && frac.all Char.isDigit
       | _ => false))

/-- `TOONParser._parsePrimitive`.  A numeric literal with a decimal point
denotes an IEEE double, which is outside this embedding; that branch is
modelled as a failure and is not exercised by any theorem below.  `none`
otherwise models an exception thrown by `JSON.parse`. -/
def parsePrimitive (valueStr : String) : Option Node :=
  let s := jsTrim valueStr
  if s.data.head? = some '"' ∧ s.data.getLast? = some '"' then
    (jsonParseString s).map Node.str
  else if s = "true" then some (Node.bool true)
  else if s = "false" then some (Node.bool false)
  else if s = "null" then some Node.null
  else if matchesNumber s then
    if jsIncludes s '.' then none
    else some (Node.int ((jsParseInt s).getD 0))
  else some (Node.str s)

/-- `TOONParser._parseCSVRow`: split on commas outside double quotes;
quote characters toggle quoting and are dropped; every value pushed at a
comma is trimmed, and the trailing value is pushed only when nonempty. -/
def parseCSVRowAux : List Char → List String → List Char → Bool → List String
  | [], values, current, _ =>
    if current.isEmpty then values else values ++ [⟨jsTrimList current⟩]
  | ch :: rest, values, current, inQuotes =>
    if ch = '"' then parseCSVRowAux rest values current (!inQuotes)
    else if ch = ',' then
      if inQuotes then parseCSVRowAux rest values (current ++ [ch]) inQuotes
      else parseCSVRowAux rest (values ++ [⟨jsTrimList current⟩]) [] inQuotes
    else parseCSVRowAux rest values (current ++ [ch]) inQuotes

/-- `TOONParser._parseCSVRow`. -/
def parseCSVRow (rowStr : String) : List String :=
  parseCSVRowAux rowStr.data [] [] false

/-- The result of `_parseArrayDeclaration`: `length` is the
`parseInt` of the bracket contents (`none` models `NaN`), `fields` the
brace-enclosed comma-split field list when present. -/
structure ArrayMeta where
  length : Option Int
  fields : Option (List String)

/-- `TOONParser._parseArrayDeclaration`. -/
def parseArrayDeclaration (keyStr : String) : String × ArrayMeta :=
  let key := jsSubstring keyStr 0 (jsIndexOf keyStr '[')
  let lengthStart := jsIndexOf keyStr '[' + 1
  let lengthEnd := jsIndexOf keyStr ']'
  let len := jsParseInt (jsSubstring keyStr lengthStart lengthEnd)
  let fields :=
    if jsIncludes keyStr lbrace then
      let fieldsStart := jsIndexOf keyStr lbrace + 1
      let fieldsEnd := jsIndexOf keyStr rbrace
      some ((jsSplit (jsSubstring keyStr fieldsStart fieldsEnd) ',').map jsTrim)
    else none
  (key, { length := len, fields := fields })

/-- JavaScript object assignment `obj[key] = v` on an insertion-ordered
object: an existing key keeps its position and is overwritten, a new key
is appended.  (TOON keys here are never array-index strings, so the
enumeration order is insertion order.) -/
def objInsert (acc : List (String × Node)) (k : String) (v : Node) : List (String × Node) :=
  if acc.any (fun kv => kv.1 = k) then
    acc.map (fun kv => if kv.1 = k then (k, v) else kv)
  else acc ++ [(k, v)]

/-- `line.length - line.trimStart().length`. -/
def indentOf (line : String) : Nat := jsLength line - jsLength (jsTrimStart line)

/-- Build one tabular row object: fields map positionally onto the parsed
CSV values, indices past the row's length are skipped
(`fields.forEach` with the `fieldIdx < rowValues.length` guard). -/
def buildRow (fields : List String) (rowValues : List String) : Option (List (String × Node)) :=
  fields.enum.foldlM
    (fun acc fi =>
      if fi.1 < rowValues.length then
        (parsePrimitive (rowValues.getD fi.1 "")).map (fun v => objInsert acc fi.2 v)
      else some acc)
    []

/-- The row-collection loop inside `_parseLines` for a tabular array
declaration: starting at `rowIdx`, scan while `rowIdx < lines.length` and
fewer than `len` rows have been collected (a `NaN` length — `none` —
compares false and collects nothing).  A line with indent at least
`rowIndent` and nonempty trim contributes a row; any other line is
skipped.  `fuel` mirrors `lines.length - rowIdx` and the caller passes
`lines.length`, which always suffices. -/
def tabularRows (lines : List String) (rowIndent : Nat) (fields : List String)
    (len : Option Int) :
    Nat → Nat → List (List (String × Node)) → Option (List (List (String × Node)) × Nat)
  | 0, rowIdx, rows => some (rows, rowIdx)
  | fuel+1, rowIdx, rows =>
    let more : Bool :=
      decide (rowIdx < lines.length) &&
        (match len with
         | some L => decide ((rows.length : Int) < L)
         | none => false)
    if more then
      let rowLine := lines.getD rowIdx ""
      if indentOf rowLine ≥ rowIndent ∧ (jsTrim rowLine).data ≠ [] then
        match buildRow fields (parseCSVRow (jsTrim rowLine)) with
        | none => none
        | some rowObj =>
          tabularRows lines rowIndent fields len fuel (rowIdx + 1) (rows ++ [rowObj])
      else tabularRows lines rowIndent fields len fuel (rowIdx + 1) rows
    else some (rows, rowIdx)

/-- `TOONParser._parseLines`: the indentation-driven line loop, with the
accumulated object and the current line index.  `fuel` bounds loop
iterations across the nesting chain; the wrapper `parseToon` supplies
more than any input can consume, so exhaustion (`none` from fuel `0`) is
unreachable from it.  An inner `none` models an exception thrown while
parsing a primitive. -/
def parseLines (lines : List String) :
    Nat → Nat → Nat → List (String × Node) → Option (List (String × Node) × Nat)
  | 0, _, _, _ => none
  | fuel+1, idx, baseIndent, obj =>
    if idx < lines.length then
      let line := lines.getD idx ""
      if (jsTrim line).data = [] then parseLines lines fuel (idx + 1) baseIndent obj
      else
        let indent := indentOf line
        if indent < baseIndent then some (obj, idx)
        else if indent > baseIndent then parseLines lines fuel (idx + 1) baseIndent obj
        else
          let lineContent := jsTrim line
          if jsIncludes lineContent ':' then
            let colonIdx := jsIndexOf lineContent ':'
            let key := jsTrim (jsSubstring lineContent 0 colonIdx)
            let valuePart := jsTrim (jsSubstringFrom lineContent (colonIdx + 1))
            if jsIncludes key '[' ∧ jsIncludes key ']' then
              let decl := parseArrayDeclaration key
              if jsIncludes key lbrace then
                match tabularRows lines (indent + 2) ((decl.2.fields).getD [])
                    decl.2.length lines.length (idx + 1) [] with
                | none => none
                | some (rows, rowIdx) =>
                  parseLines lines fuel rowIdx baseIndent
                    (objInsert obj decl.1 (Node.arr (rows.map Node.obj)))
              else
                if valuePart.data ≠ [] then
                  match (parseCSVRow valuePart).mapM parsePrimitive with
                  | none => none
                  | some vs =>
                    parseLines lines fuel (idx + 1) baseIndent
                      (objInsert obj decl.1 (Node.arr vs))
                else
                  parseLines lines fuel (idx + 1) baseIndent
                    (objInsert obj decl.1 (Node.arr []))
            else if valuePart.data = [] then
              if idx + 1 < lines.length ∧ indentOf (lines.getD (idx + 1) "") > indent then
                match parseLines lines fuel (idx + 1) (indent + 2) [] with
                | none => none
                | some (nested, nextIdx) =>
                  parseLines lines fuel nextIdx baseIndent
                    (objInsert obj key (Node.obj nested))
              else parseLines lines fuel (idx + 1) baseIndent obj
            else
              match parsePrimitive valuePart with
              | none => none
              | some v => parseLines lines fuel (idx + 1) baseIndent (objInsert obj key v)
          else parseLines lines fuel (idx + 1) baseIndent obj
    else some (obj, idx)

/-- `TOONParser.parse`: trim, split into lines, run `_parseLines`, return
the resulting object.  The fuel `(L + 2) * (L + 2)` exceeds the total
iteration count of the source loop on any input of `L` lines. -/
def parseToon (toonStr : String) : Option Node :=
  let lines := jsSplit (jsTrim toonStr) '\n'
  (parseLines lines ((lines.length + 2) * (lines.length + 2)) 0 0 []).map
    (fun r => Node.obj r.1)

/-! ## The binary protocol client (`NexaClient` in `index.js`)

Bytes are naturals below 256.  MessagePack payloads are kept opaque: a
frame carries its raw payload bytes, and the decoded payload of an
inbound message is an abstract value of a type parameter `α`. -/

/-- The protocol magic constant (`"NEXA"`). -/
def MAGIC : Nat := 0x4E455841

/-- The protocol version byte. -/
def VERSION : Nat := 0x01

def MSG_SUCCESS : Nat := 0x81
def MSG_ERROR : Nat := 0x82
def MSG_NOT_FOUND : Nat := 0x83
def MSG_DUPLICATE : Nat := 0x84
def MSG_PONG : Nat := 0x88

/-- Big-endian bytes of `writeUInt32BE n`. -/
def u32be (n : Nat) : List Nat :=
  [n / 16777216 % 256, n / 65536 % 256, n / 256 % 256, n % 256]

/-- `readUInt32BE` at offset `off` (the caller has checked bounds). -/
def readU32BE (b : List Nat) (off : Nat) : Nat :=
  b.getD off 0 * 16777216 + b.getD (off + 1) 0 * 65536 +
    b.getD (off + 2) 0 * 256 + b.getD (off + 3) 0

/-- The 12-byte header plus payload built by `_sendMessage`: magic,
version, message type, zero flags, payload length — all big-endian. -/
def encodeFrame (msgType : Nat) (payload : List Nat) : List Nat :=
  u32be MAGIC ++ [VERSION, msgType] ++ [0, 0] ++ u32be payload.length ++ payload

/-- A decoded frame: message kind and raw payload bytes. -/
abbrev Frame := Nat × List Nat

/-- The `while` loop of `_handleData` over the accumulated buffer:
while at least 12 bytes are buffered, read the declared payload length;
stop if the full message is not yet buffered; report corruption (and
stop) if the magic does not match; otherwise slice out one frame and
continue.  Returns the frames sliced out in order, whether corruption
was reported, and the remaining buffer.  One frame consumes at least 12
bytes, so `fuel = buf.length` (supplied by `drain`) always suffices. -/
def drainAux : Nat → List Nat → List Frame × Bool × List Nat
  | 0, buf => ([], false, buf)
  | fuel+1, buf =>
    if buf.length < 12 then ([], false, buf)
    else
      let payloadLen := readU32BE buf 8
      if buf.length < 12 + payloadLen then ([], false, buf)
      else if readU32BE buf 0 ≠ MAGIC then ([], true, buf)
      else
        let msgType := buf.getD 5 0
        let payload := (buf.drop 12).take payloadLen
        let r := drainAux fuel (buf.drop (12 + payloadLen))
        ((msgType, payload) :: r.1, r.2.1, r.2.2)

/-- Frame extraction from a buffer (the loop of `_handleData`). -/
def drain (buf : List Nat) : List Frame × Bool × List Nat :=
  drainAux buf.length buf

/-- Feeding a sequence of socket `data` chunks through `_handleData`:
each chunk is appended to the leftover buffer and the buffer is drained;
a corruption report destroys the socket, so no further chunk is
processed.  Returns all frames produced in order, and `none` when
corruption was reported (otherwise the final leftover buffer). -/
def runChunks (buf : List Nat) : List (List Nat) → List Frame × Option (List Nat)
  | [] => ([], some buf)
  | c :: cs =>
    let r := drain (buf ++ c)
    if r.2.1 then (r.1, none)
    else
      let rest := runChunks r.2.2 cs
      (r.1 ++ rest.1, rest.2)

/-- One pending entry of `this.pendingRequests`. -/
structure PendingReq where
  id : Nat
  timestamp : Nat
deriving Repr, DecidableEq

/-- The client state fields that the modelled operations touch. -/
structure ClientState where
  connected : Bool
  connecting : Bool
  autoReconnect : Bool
  pendingRequests : List PendingReq
  requestId : Nat
  buffer : List Nat
deriving Repr, DecidableEq

/-- How `_handleMessage` settles the request at the head of the queue,
as a function of the response kind (`data` is the decoded payload). -/
inductive Outcome (α : Type) where
  | success (data : α)
  | errorMsg (data : α)
  | notFound
  | unknown (msgType : Nat)
deriving Repr, DecidableEq

/-- The observable effect of `_handleMessage`. -/
inductive MsgEvent (α : Type) where
  | settled (reqId : Nat) (outcome : Outcome α)
  | unsolicited (msgType : Nat) (data : α)
deriving Repr, DecidableEq

/-- Response-kind dispatch of `_handleMessage`. -/
def outcomeFor {α : Type} (msgType : Nat) (data : α) : Outcome α :=
  if msgType = MSG_SUCCESS ∨ msgType = MSG_PONG then .success data
  else if msgType = MSG_ERROR then .errorMsg data
  else if msgType = MSG_NOT_FOUND then .notFound
  else .unknown msgType

/-- `_handleMessage`: shift the pending queue and settle its head with
the outcome determined by the response kind; with an empty queue the
message is emitted as an unsolicited event instead. -/
def handleMessage {α : Type} (st : ClientState) (msgType : Nat) (data : α) :
    ClientState × MsgEvent α :=
  match st.pendingRequests with
  | [] => (st, .unsolicited msgType data)
  | req :: rest =>
    ({ st with pendingRequests := rest }, .settled req.id (outcomeFor msgType data))

/-- Deliver a list of decoded inbound messages one at a time. -/
def processMessages {α : Type} (st : ClientState) :
    List (Nat × α) → ClientState × List (MsgEvent α)
  | [] => (st, [])
  | m :: ms =>
    let r := handleMessage st m.1 m.2
    let rest := processMessages r.1 ms
    (rest.1, r.2 :: rest.2)

/-- The failure of `_sendMessage` when not connected. -/
inductive SendError where
  | notConnected
deriving Repr, DecidableEq

/-- `_sendMessage`: reject immediately when not connected (before
touching the transport); otherwise encode the frame, write it, and
append a pending entry with the next request id.  `enc` is the
MessagePack encoding of the payload, kept abstract; `now` is
`Date.now()`.  Returns the new state, the bytes written to the socket,
and the immediate failure if any. -/
def sendMessage {α : Type} (enc : α → List Nat) (now : Nat) (st : ClientState)
    (msgType : Nat) (data : α) : ClientState × List Nat × Option SendError :=
  if !st.connected then (st, [], some .notConnected)
  else
    let message := encodeFrame msgType (enc data)
    ({ st with
        pendingRequests := st.pendingRequests ++ [⟨st.requestId, now⟩],
        requestId := st.requestId + 1 },
      message, none)

/-- Send a list of payloads in order (all at the same `now`). -/
def sendAll {α : Type} (enc : α → List Nat) (now : Nat) (st : ClientState) :
    List (Nat × α) → ClientState × List (List Nat)
  | [] => (st, [])
  | r :: rs =>
    let s1 := sendMessage enc now st r.1 r.2
    let rest := sendAll enc now s1.1 rs
    (rest.1, s1.2.1 :: rest.2)

/-- The observable effects of the socket `close` handler. -/
inductive CloseEvent where
  | disconnected
  | rejectedConnectionClosed (reqId : Nat)
  | scheduledReconnect (delayMs : Nat)
deriving Repr, DecidableEq

/-- Whether a close event is a scheduled reconnection attempt. -/
def isScheduledReconnect : CloseEvent → Bool
  | .scheduledReconnect _ => true
  | _ => false

/-- The socket `close` handler: mark disconnected and emit the
disconnect event, reject every pending request (in queue order) with a
connection-closed failure and empty the queue, then — when auto-reconnect
is enabled and no connection attempt is in flight — schedule exactly one
reconnection attempt after the fixed 1000 ms delay. -/
def handleClose (st : ClientState) : ClientState × List CloseEvent :=
  let rejects := st.pendingRequests.map (fun r => CloseEvent.rejectedConnectionClosed r.id)
  let st' := { st with connected := false, pendingRequests := [] }
  if st.autoReconnect ∧ !st.connecting then
    (st', .disconnected :: rejects ++ [.scheduledReconnect 1000])
  else
    (st', .disconnected :: rejects)

/-- A well-formed frame: message kind a byte, payload length expressible
in the 32-bit length field. -/
def WFFrame (f : Frame) : Prop := f.1 < 256 ∧ f.2.length < 4294967296

instance : DecidablePred WFFrame := fun f =>
  inferInstanceAs (Decidable (f.1 < 256 ∧ f.2.length < 4294967296))

/-- The exact concatenation of the encodings of a list of frames. -/
def encodeAll (frames : List Frame) : List Nat :=
  (frames.map (fun f => encodeFrame f.1 f.2)).flatten

/-! ## The unambiguous flat fragment of TOON

The round-trip theorems below quantify over mappings in this fragment:
keys that survive the parser's key extraction unchanged, and scalar
values whose rendered token parses back to the same value. -/

/-- Characters allowed anywhere in a safe string value: no comma, quote
or newline (which would trigger quoting), and no carriage return (which
`trim` would strip at the ends of a line). -/
def plainChar (c : Char) : Bool :=
  !(c = ',' || c = '"' || c = '\n' || c = '\r')

/-- A safe string value: nonempty, only plain characters, no leading or
trailing whitespace (the parser trims the value part), and not mistakable
for a boolean, null or numeric token. -/
def safeStr (s : String) : Bool :=
  !s.data.isEmpty && s.data.all plainChar &&
    !jsWhitespace (s.data.headD ' ') && !jsWhitespace (s.data.getLastD ' ') &&
    !(s = "true") && !(s = "false") && !(s = "null") && !matchesNumber s

/-- The empty-string value (the one scalar the round trip drops). -/
def isEmptyStr : Node → Bool
  | .str s => s.data.isEmpty
  | _ => false

/-- A safe scalar value: null, boolean, an integer in the
double-precision safe range, or a safe string. -/
def safeScalar : Node → Bool
  | .null => true
  | .bool _ => true
  | .int n => decide (n.natAbs ≤ 9007199254740992)
  | .str s => safeStr s
  | _ => false

/-- Characters allowed in a safe key: nothing that the parser's line
splitting (`:`), array detection (`[`, `]`, braces), CSV handling (`,`,
quote) or line handling (newline, carriage return) reacts to. -/
def keyChar (c : Char) : Bool :=
  !(c = ':' || c = '[' || c = ']' || c = lbrace || c = rbrace || c = ',' ||
    c = '"' || c = '\n' || c = '\r')

/-- A safe key: nonempty, only safe characters, no whitespace at either
end (the parser trims the extracted key), and not starting with a digit
(so the key is never an array-index property, keeping JavaScript object
enumeration order equal to insertion order). -/
def safeKey (k : String) : Bool :=
  !k.data.isEmpty && k.data.all keyChar &&
    !jsWhitespace (k.data.headD ' ') && !jsWhitespace (k.data.getLastD ' ') &&
    !(k.data.headD ' ').isDigit

/-- A flat mapping entry the round-trip theorems cover: safe key, and a
safe scalar or empty-string value. -/
def entryOk (kv : String × Node) : Bool :=
  safeKey kv.1 && (safeScalar kv.2 || isEmptyStr kv.2)

/-- Entries the round trip keeps (empty-string values are dropped). -/
def keepEntry (kv : String × Node) : Bool := !isEmptyStr kv.2

/-- The serialized line of a flat scalar entry (scalar rendering does not
consume fuel, so fuel 0 is passed). -/
def flatLine (kv : String × Node) : String :=
  kv.1 ++ ": " ++ serializePrimitive 0 kv.2

/-- Right-trim of a string (what JavaScript `trim` does to the tail of
the serialized text, affecting only its last line). -/
def rstrip (s : String) : String := ⟨jsTrimRightList s.data⟩

/-- Apply `f` to the last element of a list. -/
def mapLast {α : Type} (f : α → α) : List α → List α
  | [] => []
  | [a] => [f a]
  | a :: b :: t => a :: mapLast f (b :: t)

/-- The two shapes in which a flat entry's serialized line can reach the
parser: verbatim, or right-trimmed (the text's last line). -/
def LineOf (kv : String × Node) (l : String) : Prop :=
  l = flatLine kv ∨ l = rstrip (flatLine kv)

/-- What `line.trim()` leaves of a flat entry's line: the whole line, or
— for an empty-string value — the key and colon with the trailing space
stripped. -/
def trimmedData (kv : String × Node) : List Char :=
  if isEmptyStr kv.2 then kv.1.data ++ [':']
  else kv.1.data ++ ':' :: ' ' :: (serializePrimitive 0 kv.2).data

/-- The per-entry line group pushed by `_serializeObject` at indent
level 0 (named so the serializer unfolding lemmas can refer to it). -/
def objBranch (fuel : Nat) (kv : String × Node) : List String :=
  match kv.2 with
  | .obj kvs' => [indentStr 0 ++ kv.1 ++ ":", serializeAux 2 fuel (.objOf kvs' 1)]
  | .arr xs => [indentStr 0 ++ serializeAux 2 fuel (.arrWithKey kv.1 xs 0)]
  | v => [indentStr 0 ++ kv.1 ++ ": " ++ serializePrimitive fuel v]

/-! ## Theorems: frame encoding (C4) and send guard (C8) -/

/-- The encoded frame as an explicit byte list. -/
theorem encodeFrame_cons (t : Nat) (p : List Nat) :
    encodeFrame t p = 78 :: 69 :: 88 :: 65 :: 1 :: t :: 0 :: 0 ::
      (p.length / 16777216 % 256) :: (p.length / 65536 % 256) ::
      (p.length / 256 % 256) :: (p.length % 256) :: p := by
  simp only [encodeFrame, u32be, MAGIC, VERSION]
  norm_num

/-- C4: for every message kind and payload, the encoded wire frame is a
12-byte big-endian header followed by the payload verbatim: bytes 0–3
hold the magic constant 0x4E455841, byte 4 the protocol version, byte 5
the message kind, bytes 6–7 zero flags, and bytes 8–11 the exact byte
length of the payload. -/
theorem encodeFrame_spec (msgType : Nat) (payload : List Nat)
    (_hT : msgType < 256) (hL : payload.length < 4294967296) :
    (encodeFrame msgType payload).length = 12 + payload.length ∧
    readU32BE (encodeFrame msgType payload) 0 = 0x4E455841 ∧
    (encodeFrame msgType payload).getD 4 0 = VERSION ∧
    (encodeFrame msgType payload).getD 5 0 = msgType ∧
    (encodeFrame msgType payload).getD 6 0 = 0 ∧
    (encodeFrame msgType payload).getD 7 0 = 0 ∧
    readU32BE (encodeFrame msgType payload) 8 = payload.length ∧
    (encodeFrame msgType payload).drop 12 = payload := by
  rw [encodeFrame_cons]
  refine ⟨by simp [VERSION]; omega, ?_, rfl, rfl, rfl, rfl, ?_, rfl⟩
  · simp only [readU32BE]
    norm_num [List.getD_cons_succ, List.getD_cons_zero]
  · simp only [readU32BE]
    norm_num [List.getD_cons_succ, List.getD_cons_zero]
    omega

/-- Witness for `encodeFrame_spec` at a concrete kind and payload. -/
theorem encodeFrame_spec_witness :
    (3 : Nat) < 256 ∧ ([7, 8, 9] : List Nat).length < 4294967296 ∧
    ((encodeFrame 3 [7, 8, 9]).length = 12 + [7, 8, 9].length ∧
      readU32BE (encodeFrame 3 [7, 8, 9]) 0 = 0x4E455841 ∧
      (encodeFrame 3 [7, 8, 9]).getD 4 0 = VERSION ∧
      (encodeFrame 3 [7, 8, 9]).getD 5 0 = 3 ∧
      (encodeFrame 3 [7, 8, 9]).getD 6 0 = 0 ∧
      (encodeFrame 3 [7, 8, 9]).getD 7 0 = 0 ∧
      readU32BE (encodeFrame 3 [7, 8, 9]) 8 = [7, 8, 9].length ∧
      (encodeFrame 3 [7, 8, 9]).drop 12 = [7, 8, 9]) :=
  ⟨by decide, by decide, encodeFrame_spec 3 [7, 8, 9] (by decide) (by decide)⟩

/-- C8: when the connection is not open, `_sendMessage` rejects
immediately with a not-connected failure: no bytes are written to the
socket and the client state (in particular the pending-request queue) is
unchanged. -/
theorem sendMessage_not_connected {α : Type} (enc : α → List Nat) (now : Nat)
    (st : ClientState) (msgType : Nat) (data : α) (h : st.connected = false) :
    sendMessage enc now st msgType data = (st, [], some .notConnected) := by
  simp [sendMessage, h]

/-- Witness for `sendMessage_not_connected` at a concrete state. -/
theorem sendMessage_not_connected_witness :
    (ClientState.mk false false true [⟨0, 5⟩] 1 []).connected = false ∧
    sendMessage (fun n : Nat => [n]) 7 (ClientState.mk false false true [⟨0, 5⟩] 1 []) 2 9 =
      (ClientState.mk false false true [⟨0, 5⟩] 1 [], [], some .notConnected) :=
  ⟨rfl, sendMessage_not_connected (fun n : Nat => [n]) 7 _ 2 9 rfl⟩

/-! ## Theorems: close handling (C6) -/

/-- The rejection events of the pending queue are never reconnection
events. -/
theorem filter_sched_rejects (l : List PendingReq) :
    (l.map (fun r => CloseEvent.rejectedConnectionClosed r.id)).filter
      isScheduledReconnect = [] := by
  induction l with
  | nil => rfl
  | cons r rs ih => simp only [List.map_cons, List.filter_cons, isScheduledReconnect]; exact ih

/-- C6: on an unexpected transport closure with auto-reconnect enabled
and no connection attempt in flight, the close handler first rejects
every pending request with a connection-closed failure in queue (FIFO)
order and empties the queue, and only afterwards schedules exactly one
reconnection attempt, after the fixed 1000 ms delay. -/
theorem handleClose_spec (st : ClientState)
    (h1 : st.autoReconnect = true) (h2 : st.connecting = false) :
    handleClose st =
      ({ st with connected := false, pendingRequests := [] },
        .disconnected ::
          st.pendingRequests.map (fun r => CloseEvent.rejectedConnectionClosed r.id) ++
          [.scheduledReconnect 1000]) ∧
    (handleClose st).2.filter isScheduledReconnect = [.scheduledReconnect 1000] := by
  constructor
  · simp [handleClose, h1, h2]
  · simp [handleClose, h1, h2, isScheduledReconnect, List.filter_append,
      filter_sched_rejects]

/-- Witness for `handleClose_spec` at a concrete state with two pending
requests. -/
theorem handleClose_spec_witness :
    (ClientState.mk true false true [⟨4, 0⟩, ⟨5, 0⟩] 6 []).autoReconnect = true ∧
    (ClientState.mk true false true [⟨4, 0⟩, ⟨5, 0⟩] 6 []).connecting = false ∧
    (handleClose (ClientState.mk true false true [⟨4, 0⟩, ⟨5, 0⟩] 6 []) =
      (ClientState.mk false false true [] 6 [],
        [.disconnected, .rejectedConnectionClosed 4, .rejectedConnectionClosed 5,
          .scheduledReconnect 1000]) ∧
      (handleClose (ClientState.mk true false true [⟨4, 0⟩, ⟨5, 0⟩] 6 [])).2.filter
        isScheduledReconnect = [.scheduledReconnect 1000]) :=
  ⟨rfl, rfl, handleClose_spec _ rfl rfl⟩

/-! ## Theorems: FIFO correlation (C3) -/

/-- Settling a full queue: when as many responses arrive as requests are
pending, each inbound message settles exactly the head of the queue, so
the i-th response settles the i-th pending request, and the queue is
empty afterwards. -/
theorem processMessages_spec {α : Type} (msgs : List (Nat × α)) (st : ClientState)
    (h : st.pendingRequests.length = msgs.length) :
    (processMessages st msgs).2 =
      List.zipWith (fun (req : PendingReq) (m : Nat × α) =>
        MsgEvent.settled req.id (outcomeFor m.1 m.2)) st.pendingRequests msgs ∧
    (processMessages st msgs).1.pendingRequests = [] := by
  induction msgs generalizing st with
  | nil =>
    match hp : st.pendingRequests with
    | [] => simp [processMessages, hp]
    | _ :: _ => rw [hp] at h; simp at h
  | cons m ms ih =>
    match hp : st.pendingRequests with
    | [] => rw [hp] at h; simp at h
    | p :: ps =>
      have hlen : ({ st with pendingRequests := ps } : ClientState).pendingRequests.length
          = ms.length := by
        rw [hp] at h; simpa using h
      have := ih { st with pendingRequests := ps } hlen
      simp [processMessages, handleMessage, hp, this.1, this.2]

/-- `sendAll` on an open connection appends one pending entry per request,
with consecutive ids starting at the current `requestId`, and keeps the
connection flag. -/
theorem sendAll_pending {α : Type} (enc : α → List Nat) (now : Nat)
    (reqs : List (Nat × α)) (st : ClientState) (h : st.connected = true) :
    (sendAll enc now st reqs).1.pendingRequests =
      st.pendingRequests ++
        (List.range reqs.length).map (fun i => PendingReq.mk (st.requestId + i) now) ∧
    (sendAll enc now st reqs).1.connected = true := by
  induction reqs generalizing st with
  | nil => simp [sendAll, h]
  | cons r rs ih =>
    have step : sendMessage enc now st r.1 r.2 =
        ({ st with
            pendingRequests := st.pendingRequests ++ [⟨st.requestId, now⟩],
            requestId := st.requestId + 1 },
          encodeFrame r.1 (enc r.2), none) := by
      simp [sendMessage, h]
    have ihs := ih { st with
        pendingRequests := st.pendingRequests ++ [⟨st.requestId, now⟩],
        requestId := st.requestId + 1 } (by simp [h])
    have hr : (List.range (r :: rs).length).map
        (fun i => PendingReq.mk (st.requestId + i) now) =
        PendingReq.mk st.requestId now ::
          (List.range rs.length).map (fun i => PendingReq.mk (st.requestId + 1 + i) now) := by
      simp only [List.length_cons, List.range_succ_eq_map, List.map_cons, List.map_map]
      refine congrArg₂ _ (by simp) ?_
      apply List.map_congr_left
      intro i _
      simp only [Function.comp_apply, PendingReq.mk.injEq, and_true]
      omega
    refine ⟨?_, ?_⟩
    · rw [sendAll, step]
      simp only at ihs ⊢
      rw [ihs.1, hr]
      simp
    · rw [sendAll, step]
      exact ihs.2

/-- C3: strict FIFO correlation.  Starting from an open connection with
an empty queue, send requests Q1..Qn and then deliver responses R1..Rn
in the same order: the i-th settlement settles exactly the i-th request
(the one holding the i-th assigned id) with the outcome of the i-th
response — no request is cross-matched with another request's
response — and the queue is empty afterwards. -/
theorem fifo_correlation {α : Type} (enc : α → List Nat) (now : Nat)
    (st0 : ClientState) (reqs resps : List (Nat × α))
    (hconn : st0.connected = true) (hpend : st0.pendingRequests = [])
    (hlen : resps.length = reqs.length) :
    (processMessages (sendAll enc now st0 reqs).1 resps).2 =
      List.zipWith (fun (i : Nat) (m : Nat × α) =>
        MsgEvent.settled (st0.requestId + i) (outcomeFor m.1 m.2))
        (List.range reqs.length) resps ∧
    (processMessages (sendAll enc now st0 reqs).1 resps).1.pendingRequests = [] := by
  have hsa := sendAll_pending enc now reqs st0 hconn
  have hq : (sendAll enc now st0 reqs).1.pendingRequests =
      (List.range reqs.length).map (fun i => PendingReq.mk (st0.requestId + i) now) := by
    rw [hsa.1, hpend]; simp
  have hlen2 : (sendAll enc now st0 reqs).1.pendingRequests.length = resps.length := by
    rw [hq]; simp [hlen]
  have hpm := processMessages_spec resps (sendAll enc now st0 reqs).1 hlen2
  refine ⟨?_, hpm.2⟩
  rw [hpm.1, hq, List.zipWith_map_left]

/-- Witness for `fifo_correlation`: two requests, a success and an error
response, settled in order. -/
theorem fifo_correlation_witness :
    (ClientState.mk true false true [] 10 []).connected = true ∧
    (ClientState.mk true false true [] 10 []).pendingRequests = [] ∧
    ([(MSG_SUCCESS, 5), (MSG_ERROR, 6)] : List (Nat × Nat)).length =
      ([(2, 1), (3, 4)] : List (Nat × Nat)).length ∧
    ((processMessages (sendAll (fun n : Nat => [n]) 0
        (ClientState.mk true false true [] 10 []) [(2, 1), (3, 4)]).1
        [(MSG_SUCCESS, 5), (MSG_ERROR, 6)]).2 =
      List.zipWith (fun (i : Nat) (m : Nat × Nat) =>
        MsgEvent.settled (10 + i) (outcomeFor m.1 m.2))
        (List.range 2) [(MSG_SUCCESS, 5), (MSG_ERROR, 6)] ∧
      (processMessages (sendAll (fun n : Nat => [n]) 0
        (ClientState.mk true false true [] 10 []) [(2, 1), (3, 4)]).1
        [(MSG_SUCCESS, 5), (MSG_ERROR, 6)]).1.pendingRequests = []) :=
  ⟨rfl, rfl, rfl,
    fifo_correlation (fun n : Nat => [n]) 0 _ [(2, 1), (3, 4)]
      [(MSG_SUCCESS, 5), (MSG_ERROR, 6)] rfl rfl rfl⟩

/-! ## Theorems: the stream reassembly loop (C5, C7, C9) -/

/-- `drainAux` ignores the fuel as long as it is at least the buffer
length. -/
theorem drainAux_fuel (n : Nat) : ∀ (b : List Nat) (f f' : Nat), b.length = n →
    n ≤ f → n ≤ f' → drainAux f b = drainAux f' b := by
  induction n using Nat.strong_induction_on with
  | _ n ih =>
    intro b f f' hb hf hf'
    match f, f' with
    | 0, 0 => rfl
    | 0, f' + 1 =>
      have hb0 : b.length < 12 := by omega
      simp [drainAux, hb0]
    | f + 1, 0 =>
      have hb0 : b.length < 12 := by omega
      simp [drainAux, hb0]
    | f + 1, f' + 1 =>
      by_cases h1 : b.length < 12
      · simp [drainAux, h1]
      · by_cases h2 : b.length < 12 + readU32BE b 8
        · simp only [drainAux, if_neg h1, if_pos h2]
        · by_cases h3 : readU32BE b 0 ≠ MAGIC
          · simp only [drainAux, if_neg h1, if_neg h2, if_pos h3]
          · simp only [drainAux, if_neg h1, if_neg h2, if_neg h3]
            have hrec := ih (b.drop (12 + readU32BE b 8)).length
              (by simp; omega) (b.drop (12 + readU32BE b 8)) f f' rfl
              (by simp; omega) (by simp; omega)
            rw [hrec]

/-- The loop stops untouched on a buffer shorter than a header. -/
theorem drainAux_stop (f : Nat) (b : List Nat) (h : b.length < 12) :
    drainAux f b = ([], false, b) := by
  cases f with
  | zero => rfl
  | succ k => simp [drainAux, h]

/-- `drain` stops untouched on a buffer shorter than a header. -/
theorem drain_short (b : List Nat) (h : b.length < 12) : drain b = ([], false, b) :=
  drainAux_stop _ b h

/-- `drain` stops untouched while the declared payload is not fully
buffered. -/
theorem drain_wait (b : List Nat) (h12 : 12 ≤ b.length)
    (hw : b.length < 12 + readU32BE b 8) : drain b = ([], false, b) := by
  have h1 : ∃ k, b.length = k + 1 := ⟨b.length - 1, by omega⟩
  obtain ⟨k, hk⟩ := h1
  rw [drain, hk]
  simp [drainAux, hw, show ¬ b.length < 12 by omega]

/-- C9: implicit behavior of `_handleData` — the buffered-length check
runs before the magic check, so a header whose magic is wrong but whose
declared payload length exceeds the bytes buffered so far reports no
error and consumes nothing; the corrupt header sits in the buffer until
`12 + payloadLength` bytes arrive. -/
theorem drain_bad_magic_incomplete (b : List Nat) (h12 : 12 ≤ b.length)
    (_hm : readU32BE b 0 ≠ MAGIC) (hw : b.length < 12 + readU32BE b 8) :
    drain b = ([], false, b) :=
  drain_wait b h12 hw

/-- Witness for `drain_bad_magic_incomplete`: a zero-magic header
declaring a 5-byte payload with nothing after the header. -/
theorem drain_bad_magic_incomplete_witness :
    12 ≤ ([0, 0, 0, 0, 1, 129, 0, 0, 0, 0, 0, 5] : List Nat).length ∧
    readU32BE [0, 0, 0, 0, 1, 129, 0, 0, 0, 0, 0, 5] 0 ≠ MAGIC ∧
    ([0, 0, 0, 0, 1, 129, 0, 0, 0, 0, 0, 5] : List Nat).length <
      12 + readU32BE [0, 0, 0, 0, 1, 129, 0, 0, 0, 0, 0, 5] 8 ∧
    drain [0, 0, 0, 0, 1, 129, 0, 0, 0, 0, 0, 5] =
      ([], false, [0, 0, 0, 0, 1, 129, 0, 0, 0, 0, 0, 5]) :=
  ⟨by decide, by decide, by decide,
    drain_bad_magic_incomplete _ (by decide) (by decide) (by decide)⟩

/-- C7: once a frame's declared payload is fully buffered, a magic
mismatch is reported as a protocol failure — the loop yields the corrupt
signal (the client emits an error event and destroys the socket) rather
than silently dropping or skipping the frame. -/
theorem drain_bad_magic_complete (b : List Nat) (h12 : 12 ≤ b.length)
    (hL : 12 + readU32BE b 8 ≤ b.length) (hm : readU32BE b 0 ≠ MAGIC) :
    drain b = ([], true, b) := by
  obtain ⟨k, hk⟩ : ∃ k, b.length = k + 1 := ⟨b.length - 1, by omega⟩
  rw [drain, hk]
  simp [drainAux, hm, show ¬ b.length < 12 by omega,
    show ¬ b.length < 12 + readU32BE b 8 by omega]

/-- Witness for `drain_bad_magic_complete`: a zero-magic header with a
zero-length payload, fully buffered. -/
theorem drain_bad_magic_complete_witness :
    12 ≤ ([9, 9, 9, 9, 1, 129, 0, 0, 0, 0, 0, 0] : List Nat).length ∧
    12 + readU32BE [9, 9, 9, 9, 1, 129, 0, 0, 0, 0, 0, 0] 8 ≤
      ([9, 9, 9, 9, 1, 129, 0, 0, 0, 0, 0, 0] : List Nat).length ∧
    readU32BE [9, 9, 9, 9, 1, 129, 0, 0, 0, 0, 0, 0] 0 ≠ MAGIC ∧
    drain [9, 9, 9, 9, 1, 129, 0, 0, 0, 0, 0, 0] =
      ([], true, [9, 9, 9, 9, 1, 129, 0, 0, 0, 0, 0, 0]) :=
  ⟨by decide, by decide, by decide,
    drain_bad_magic_complete _ (by decide) (by decide) (by decide)⟩

/-- Unfolding `drain` across one fully buffered valid frame. -/
theorem drain_cons (b : List Nat) (h12 : 12 ≤ b.length)
    (hL : 12 + readU32BE b 8 ≤ b.length) (hm : readU32BE b 0 = MAGIC) :
    drain b = ((b.getD 5 0, (b.drop 12).take (readU32BE b 8)) ::
        (drain (b.drop (12 + readU32BE b 8))).1,
      (drain (b.drop (12 + readU32BE b 8))).2) := by
  obtain ⟨k, hk⟩ : ∃ k, b.length = k + 1 := ⟨b.length - 1, by omega⟩
  rw [drain, hk]
  simp only [drainAux, if_neg (show ¬ b.length < 12 by omega),
    if_neg (show ¬ b.length < 12 + readU32BE b 8 by omega),
    if_neg (show ¬ readU32BE b 0 ≠ MAGIC by simpa using hm)]
  have hfuel : drainAux k (b.drop (12 + readU32BE b 8)) =
      drain (b.drop (12 + readU32BE b 8)) := by
    rw [drain]
    exact drainAux_fuel (b.drop (12 + readU32BE b 8)).length _ k
      (b.drop (12 + readU32BE b 8)).length rfl (by simp; omega) (by omega)
  rw [hfuel]

/-- Reading a 32-bit field inside the left part of an appended buffer. -/
theorem readU32BE_append_left (b c : List Nat) (off : Nat) (h : off + 4 ≤ b.length) :
    readU32BE (b ++ c) off = readU32BE b off := by
  unfold readU32BE
  have g : ∀ i, i < b.length → (b ++ c).getD i 0 = b.getD i 0 := by
    intro i hi
    simp [List.getD, List.getElem?_append, hi]
  rw [g off (by omega), g (off + 1) (by omega), g (off + 2) (by omega),
    g (off + 3) (by omega)]

/-- A drained leftover buffer is stable: draining it again extracts
nothing. -/
theorem drain_stable (n : Nat) : ∀ (b : List Nat), b.length = n →
    (drain b).2.1 = false → drain ((drain b).2.2) = ([], false, (drain b).2.2) := by
  induction n using Nat.strong_induction_on with
  | _ n ih =>
    intro b hb hfl
    by_cases h1 : b.length < 12
    · rw [drain_short b h1]
      exact drain_short b h1
    · by_cases h2 : b.length < 12 + readU32BE b 8
      · rw [drain_wait b (by omega) h2]
        exact drain_wait b (by omega) h2
      · by_cases h3 : readU32BE b 0 = MAGIC
        · rw [drain_cons b (by omega) (by omega) h3]
          rw [drain_cons b (by omega) (by omega) h3] at hfl
          exact ih (b.drop (12 + readU32BE b 8)).length (by simp; omega) _ rfl hfl
        · rw [drain_bad_magic_complete b (by omega) (by omega) h3] at hfl
          simp at hfl

/-- Draining `b ++ c` first extracts everything `b` alone yields, then
continues on the leftover of `b` extended by `c` (when `b` does not
corrupt). -/
theorem drain_append (c : List Nat) (n : Nat) : ∀ (b : List Nat), b.length = n →
    (drain b).2.1 = false →
    drain (b ++ c) = ((drain b).1 ++ (drain ((drain b).2.2 ++ c)).1,
      (drain ((drain b).2.2 ++ c)).2) := by
  induction n using Nat.strong_induction_on with
  | _ n ih =>
    intro b hb hfl
    by_cases h1 : b.length < 12
    · rw [drain_short b h1]
      simp
    · by_cases h2 : b.length < 12 + readU32BE b 8
      · rw [drain_wait b (by omega) h2]
        simp
      · by_cases h3 : readU32BE b 0 = MAGIC
        · have hmagic : readU32BE (b ++ c) 0 = MAGIC := by
            rw [readU32BE_append_left b c 0 (by omega)]; exact h3
          have hlen8 : readU32BE (b ++ c) 8 = readU32BE b 8 := by
            exact readU32BE_append_left b c 8 (by omega)
          have habove : 12 + readU32BE (b ++ c) 8 ≤ (b ++ c).length := by
            rw [hlen8]; simp; omega
          have h12' : 12 ≤ (b ++ c).length := by simp; omega
          have hget5 : (b ++ c).getD 5 0 = b.getD 5 0 := by
            simp [List.getD, List.getElem?_append, show 5 < b.length by omega]
          have hdrop12 : (b ++ c).drop 12 = b.drop 12 ++ c := by
            rw [List.drop_append_eq_append_drop,
              Nat.sub_eq_zero_of_le (show 12 ≤ b.length by omega), List.drop_zero]
          have htake : (b.drop 12 ++ c).take (readU32BE b 8) =
              (b.drop 12).take (readU32BE b 8) := by
            rw [List.take_append_eq_append_take,
              Nat.sub_eq_zero_of_le (by simp; omega), List.take_zero, List.append_nil]
          have hdropL : (b ++ c).drop (12 + readU32BE b 8) =
              b.drop (12 + readU32BE b 8) ++ c := by
            rw [List.drop_append_eq_append_drop,
              Nat.sub_eq_zero_of_le (show 12 + readU32BE b 8 ≤ b.length by omega),
              List.drop_zero]
          rw [drain_cons (b ++ c) h12' habove hmagic, hlen8, hget5, hdrop12, htake,
            hdropL]
          rw [drain_cons b (by omega) (by omega) h3] at hfl ⊢
          have hrec := ih (b.drop (12 + readU32BE b 8)).length (by simp; omega)
            (b.drop (12 + readU32BE b 8)) rfl hfl
          rw [hrec]
          simp
        · rw [drain_bad_magic_complete b (by omega) (by omega) h3] at hfl
          simp at hfl

/-- A prefix of a stream that drains without corruption also drains
without corruption. -/
theorem drain_prefix_ok (c : List Nat) (n : Nat) : ∀ (b : List Nat), b.length = n →
    (drain (b ++ c)).2.1 = false → (drain b).2.1 = false := by
  induction n using Nat.strong_induction_on with
  | _ n ih =>
    intro b hb hfl
    by_cases h1 : b.length < 12
    · rw [drain_short b h1]
    · by_cases h2 : b.length < 12 + readU32BE b 8
      · rw [drain_wait b (by omega) h2]
      · by_cases h3 : readU32BE b 0 = MAGIC
        · rw [drain_cons b (by omega) (by omega) h3]
          have hmagic : readU32BE (b ++ c) 0 = MAGIC := by
            rw [readU32BE_append_left b c 0 (by omega)]; exact h3
          have hlen8 : readU32BE (b ++ c) 8 = readU32BE b 8 :=
            readU32BE_append_left b c 8 (by omega)
          have hdropL : (b ++ c).drop (12 + readU32BE b 8) =
              b.drop (12 + readU32BE b 8) ++ c := by
            rw [List.drop_append_eq_append_drop,
              Nat.sub_eq_zero_of_le (show 12 + readU32BE b 8 ≤ b.length by omega),
              List.drop_zero]
          rw [drain_cons (b ++ c) (by simp; omega) (by rw [hlen8]; simp; omega) hmagic,
            hlen8, hdropL] at hfl
          simp only at hfl
          exact ih (b.drop (12 + readU32BE b 8)).length (by simp; omega) _ rfl hfl
        · have hmagic : readU32BE (b ++ c) 0 ≠ MAGIC := by
            rw [readU32BE_append_left b c 0 (by omega)]; exact h3
          rw [drain_bad_magic_complete (b ++ c) (by simp; omega)
            (by rw [readU32BE_append_left b c 8 (by omega)]; simp; omega) hmagic] at hfl
          simp at hfl

/-- Draining the exact concatenation of well-formed encoded frames
yields exactly those frames, in order, with an empty leftover. -/
theorem drain_encodeAll (frames : List Frame) (hwf : ∀ f ∈ frames, WFFrame f) :
    drain (encodeAll frames) = (frames, false, []) := by
  induction frames with
  | nil => exact drain_short [] (by simp)
  | cons f fs ih =>
    have hf := hwf f (List.mem_cons_self f fs)
    have hrest : ∀ g ∈ fs, WFFrame g := fun g hg => hwf g (List.mem_cons_of_mem f hg)
    have hb : encodeAll (f :: fs) = encodeFrame f.1 f.2 ++ encodeAll fs := by
      simp [encodeAll]
    have hcons := encodeFrame_cons f.1 f.2
    have hlen : (encodeFrame f.1 f.2).length = 12 + f.2.length := by
      rw [hcons]; simp; omega
    have hread8 : readU32BE (encodeFrame f.1 f.2 ++ encodeAll fs) 8 = f.2.length := by
      have hlen32 := hf.2
      rw [readU32BE_append_left _ _ 8 (by omega), hcons]
      simp only [readU32BE]
      norm_num [List.getD_cons_succ, List.getD_cons_zero]
      omega
    have hread0 : readU32BE (encodeFrame f.1 f.2 ++ encodeAll fs) 0 = MAGIC := by
      rw [readU32BE_append_left _ _ 0 (by omega), hcons]
      simp only [readU32BE]
      norm_num [List.getD_cons_succ, List.getD_cons_zero, MAGIC]
    have hget5 : (encodeFrame f.1 f.2 ++ encodeAll fs).getD 5 0 = f.1 := by
      have : 5 < (encodeFrame f.1 f.2).length := by omega
      simp only [List.getD, List.getElem?_append, this]
      rw [hcons]; rfl
    have hdrop12 : (encodeFrame f.1 f.2 ++ encodeAll fs).drop 12 =
        f.2 ++ encodeAll fs := by
      rw [List.drop_append_eq_append_drop, Nat.sub_eq_zero_of_le (by omega),
        List.drop_zero, hcons]
      rfl
    have htake : (f.2 ++ encodeAll fs).take f.2.length = f.2 := by
      rw [List.take_append_eq_append_take, Nat.sub_self, List.take_zero,
        List.append_nil, List.take_length]
    have hdropL : (encodeFrame f.1 f.2 ++ encodeAll fs).drop (12 + f.2.length) =
        encodeAll fs := by
      rw [← List.drop_drop, hdrop12, List.drop_left]
    have hlentot : (encodeFrame f.1 f.2 ++ encodeAll fs).length =
        12 + f.2.length + (encodeAll fs).length := by
      rw [List.length_append, hlen]
    rw [hb, drain_cons _ (by omega) (by rw [hread8]; omega) hread0, hread8,
      hget5, hdrop12, htake, hdropL, ih hrest]

/-- Feeding chunks one at a time equals draining the whole
concatenation, provided the starting buffer is stable and the whole
stream does not corrupt. -/
theorem runChunks_drain (cs : List (List Nat)) : ∀ (buf : List Nat),
    drain buf = ([], false, buf) → (drain (buf ++ cs.flatten)).2.1 = false →
    runChunks buf cs = ((drain (buf ++ cs.flatten)).1,
      some ((drain (buf ++ cs.flatten)).2.2)) := by
  induction cs with
  | nil =>
    intro buf hstable hok
    simp only [List.flatten_nil, List.append_nil, hstable]
    rfl
  | cons c cs ih =>
    intro buf hstable hok
    have hassoc : buf ++ (c :: cs).flatten = (buf ++ c) ++ cs.flatten := by
      simp
    rw [hassoc] at hok ⊢
    have hok1 : (drain (buf ++ c)).2.1 = false :=
      drain_prefix_ok cs.flatten (buf ++ c).length (buf ++ c) rfl hok
    have happ := drain_append cs.flatten (buf ++ c).length (buf ++ c) rfl hok1
    have hstable2 := drain_stable (buf ++ c).length (buf ++ c) rfl hok1
    have hok2 : (drain ((drain (buf ++ c)).2.2 ++ cs.flatten)).2.1 = false := by
      rw [happ] at hok
      simpa using hok
    have hrec := ih ((drain (buf ++ c)).2.2) hstable2 hok2
    rw [runChunks]
    simp only [hok1, if_neg (by simp : ¬ (false = true)), hrec, happ]

/-- C5: chunking invariance of the stream reassembler.  For every list
of well-formed encoded frames and every way of splitting their exact
concatenation into successive chunks, feeding the chunks one at a time
yields exactly those frames, in order, with an empty final buffer — the
same result as feeding the whole concatenation in one call, and never a
partial frame. -/
theorem chunking_invariance (frames : List Frame) (chunks : List (List Nat))
    (hwf : ∀ f ∈ frames, WFFrame f) (hc : chunks.flatten = encodeAll frames) :
    runChunks [] chunks = (frames, some []) ∧
    runChunks [] [encodeAll frames] = (frames, some []) := by
  have hdrain := drain_encodeAll frames hwf
  have hfull : ∀ (cs : List (List Nat)), cs.flatten = encodeAll frames →
      runChunks [] cs = (frames, some []) := by
    intro cs hcs
    have := runChunks_drain cs [] (drain_short [] (by simp))
      (by rw [List.nil_append, hcs, hdrain])
    rw [this, List.nil_append, hcs, hdrain]
  exact ⟨hfull chunks hc, hfull [encodeAll frames] (by simp [encodeAll])⟩

/-- Witness for `chunking_invariance`: two frames split into chunks that
cut across both headers. -/
theorem chunking_invariance_witness :
    (∀ f ∈ ([(129, [7, 8]), (136, [])] : List Frame), WFFrame f) ∧
    ([[78, 69, 88], [65, 1, 129, 0, 0, 0, 0, 0, 2, 7], [8, 78, 69, 88, 65, 1],
        [136, 0, 0, 0, 0, 0, 0]] : List (List Nat)).flatten =
      encodeAll [(129, [7, 8]), (136, [])] ∧
    (runChunks [] [[78, 69, 88], [65, 1, 129, 0, 0, 0, 0, 0, 2, 7],
        [8, 78, 69, 88, 65, 1], [136, 0, 0, 0, 0, 0, 0]] =
      ([(129, [7, 8]), (136, [])], some []) ∧
      runChunks [] [encodeAll [(129, [7, 8]), (136, [])]] =
        ([(129, [7, 8]), (136, [])], some [])) :=
  ⟨by decide, by decide,
    chunking_invariance [(129, [7, 8]), (136, [])] _ (by decide) (by decide)⟩

/-! ## Theorems: the tabular TOON example (C2) -/

/-- C2 counterexample: `serialize([{a:1,b:2},{a:3,b:4}])` at top level
yields only the two CSV rows with no header line at all (no brace occurs
in the output), and parsing that text back yields the empty mapping, not
the original two mappings. -/
theorem serialize_tabular_top_level :
    serializeToon (Node.arr [Node.obj [("a", .int 1), ("b", .int 2)],
        Node.obj [("a", .int 3), ("b", .int 4)]]) = "1,2\n3,4" ∧
    jsIncludes "1,2\n3,4" lbrace = false ∧
    parseToon "1,2\n3,4" = some (Node.obj []) ∧
    Node.obj [] ≠ Node.arr [Node.obj [("a", .int 1), ("b", .int 2)],
        Node.obj [("a", .int 3), ("b", .int 4)]] :=
  ⟨rfl, rfl, rfl, fun h => Node.noConfusion h⟩

/-- C2 amended: the tabular header appears when the uniform sequence of
mappings is the value of a key.  Serializing `{k: [{a:1,b:2},{a:3,b:4}]}`
yields the header line `k[2]{a,b}:` followed by the two CSV rows `1,2`
and `3,4` at indent 2, and parsing that text back yields the original
mapping with its two row mappings intact. -/
theorem serialize_tabular_under_key :
    serializeToon (Node.obj [("k", Node.arr [Node.obj [("a", .int 1), ("b", .int 2)],
        Node.obj [("a", .int 3), ("b", .int 4)]])]) =
      "k[2]\x7ba,b\x7d:\n  1,2\n  3,4" ∧
    parseToon "k[2]\x7ba,b\x7d:\n  1,2\n  3,4" =
      some (Node.obj [("k", Node.arr [Node.obj [("a", .int 1), ("b", .int 2)],
        Node.obj [("a", .int 3), ("b", .int 4)]])]) :=
  ⟨rfl, rfl⟩

/-! ## Theorems: the TOON round trip (C1, C10) -/

/-- C1 counterexample: the parser always returns a mapping, so a
top-level scalar — squarely a TOON Node tree with no type ambiguity —
does not round-trip: `parse(serialize(42))` is the empty mapping. -/
theorem roundtrip_fails_at_top_level_scalar :
    serializeToon (Node.int 42) = "42" ∧
    parseToon (serializeToon (Node.int 42)) = some (Node.obj []) ∧
    Node.obj [] ≠ Node.int 42 :=
  ⟨rfl, rfl, fun h => Node.noConfusion h⟩

/-! ## String, character and trim lemmas -/

theorem str_nil_append (s : String) : "" ++ s = s := by
  cases s
  rfl

theorem str_mk_eq_iff (l : List Char) (m : List Char) :
    (⟨l⟩ : String) = (⟨m⟩ : String) ↔ l = m := by
  rw [String.ext_iff]

/-- A digit character is not JavaScript whitespace. -/
theorem isDigit_not_ws (c : Char) (h : c.isDigit = true) : jsWhitespace c = false := by
  have hd : 48 ≤ c.toNat ∧ c.toNat ≤ 57 := by
    simp only [Char.isDigit, Bool.and_eq_true, decide_eq_true_eq] at h
    exact h
  simp only [jsWhitespace, Bool.or_eq_false_iff, Bool.and_eq_false_iff,
    beq_eq_false_iff_ne, ne_eq, decide_eq_false_iff_not]
  omega

/-- A digit character differs from any non-digit character. -/
theorem isDigit_ne (c d : Char) (h : c.isDigit = true) (hd : d.isDigit = false) :
    c ≠ d := fun he => by subst he; rw [h] at hd; exact Bool.noConfusion hd

theorem jsTrimLeftList_eq_self (l : List Char)
    (h : ∀ c, l.head? = some c → jsWhitespace c = false) : jsTrimLeftList l = l := by
  cases l with
  | nil => rfl
  | cons c t => simp [jsTrimLeftList, List.dropWhile_cons, h c rfl]

theorem jsTrimRightList_eq_self (l : List Char)
    (h : ∀ c, l.getLast? = some c → jsWhitespace c = false) : jsTrimRightList l = l := by
  unfold jsTrimRightList
  have hrev : l.reverse.dropWhile jsWhitespace = l.reverse := by
    cases hr : l.reverse with
    | nil => rfl
    | cons c t =>
      have hc : jsWhitespace c = false := by
        apply h
        rw [← List.head?_reverse, hr]
        rfl
      simp [List.dropWhile_cons, hc]
  rw [hrev, List.reverse_reverse]

theorem jsTrimList_eq_self (l : List Char)
    (hh : ∀ c, l.head? = some c → jsWhitespace c = false)
    (hl : ∀ c, l.getLast? = some c → jsWhitespace c = false) : jsTrimList l = l := by
  unfold jsTrimList
  rw [jsTrimLeftList_eq_self l hh, jsTrimRightList_eq_self l hl]

theorem getLast?_cons_of_ne (c : Char) (l : List Char) (h : l ≠ []) :
    (c :: l).getLast? = l.getLast? := by
  have := @List.getLast?_append_of_ne_nil _ [c] l h
  simpa using this

/-- Right-trimming past a whitespace suffix with a non-whitespace
character before it. -/
theorem jsTrimRightList_append_ws (a : List Char) (c w : Char)
    (hc : jsWhitespace c = false) (hw : jsWhitespace w = true) :
    jsTrimRightList (a ++ [c, w]) = a ++ [c] := by
  unfold jsTrimRightList
  have : (a ++ [c, w]).reverse = w :: c :: a.reverse := by
    simp
  rw [this]
  simp [List.dropWhile_cons, hw, hc]

/-- Dropping from the end does not cross a non-whitespace tail. -/
theorem jsTrimRightList_append (a b : List Char) (hb : jsTrimRightList b ≠ []) :
    jsTrimRightList (a ++ b) = a ++ jsTrimRightList b := by
  unfold jsTrimRightList at *
  rw [List.reverse_append, List.dropWhile_append]
  have hne : (b.reverse.dropWhile jsWhitespace).isEmpty = false := by
    cases hbb : b.reverse.dropWhile jsWhitespace with
    | nil => rw [hbb] at hb; simp at hb
    | cons x t => rfl
  rw [hne]
  simp

/-! ## Split and join lemmas -/

theorem splitChar_ne_nil (c : Char) (l : List Char) : splitChar c l ≠ [] := by
  cases l with
  | nil => simp [splitChar]
  | cons x t =>
    rw [splitChar]
    by_cases hx : x = c
    · simp [hx]
    · simp only [if_neg hx]
      cases splitChar c t <;> simp

theorem splitChar_cons_eq (c : Char) (t : List Char) :
    splitChar c (c :: t) = [] :: splitChar c t := by
  simp [splitChar]

theorem splitChar_cons_ne (c x : Char) (t : List Char) (h : ¬ x = c) :
    splitChar c (x :: t) =
      (match splitChar c t with
       | [] => [[x]]
       | h2 :: t2 => (x :: h2) :: t2) := by
  rw [splitChar, if_neg h]

theorem splitChar_sep (c : Char) (a b : List Char) :
    splitChar c (a ++ c :: b) = splitChar c a ++ splitChar c b := by
  induction a with
  | nil =>
    simp only [List.nil_append]
    rw [splitChar_cons_eq]
    rfl
  | cons x t ih =>
    by_cases hx : x = c
    · subst hx
      rw [List.cons_append, splitChar_cons_eq, splitChar_cons_eq, ih]
      rfl
    · rw [List.cons_append, splitChar_cons_ne c x _ hx, splitChar_cons_ne c x t hx, ih]
      rcases hsp : splitChar c t with _ | ⟨h2, t2⟩
      · exact absurd hsp (splitChar_ne_nil c t)
      · rfl

theorem splitChar_no_sep (c : Char) (l : List Char) (h : l.contains c = false) :
    splitChar c l = [l] := by
  induction l with
  | nil => rfl
  | cons x t ih =>
    simp only [List.contains_cons, Bool.or_eq_false_iff] at h
    have hx : x ≠ c := by
      intro he
      subst he
      simp at h
    rw [splitChar, if_neg hx, ih h.2]

/-- Splitting a separator-joined list of strings cuts exactly at the
separators. -/
theorem jsSplit_joinSep (ls : List String) (hne : ls ≠ []) :
    jsSplit (joinSep "\n" ls) '\n' =
      (ls.map (fun s => splitChar '\n' s.data)).flatten.map String.mk := by
  induction ls with
  | nil => exact absurd rfl hne
  | cons a t ih =>
    cases t with
    | nil => simp [jsSplit, joinSep]
    | cons b t2 =>
      have hj : joinSep "\n" (a :: b :: t2) = a ++ "\n" ++ joinSep "\n" (b :: t2) := rfl
      have hd : (a ++ "\n" ++ joinSep "\n" (b :: t2)).data =
          a.data ++ '\n' :: (joinSep "\n" (b :: t2)).data := by
        rw [String.data_append, String.data_append]
        simp
      rw [jsSplit, hj, hd, splitChar_sep]
      have iht := ih (by simp)
      rw [jsSplit] at iht
      simp only [List.map_append, iht]
      simp

/-! ## Decimal rendering and numeric token lemmas -/

theorem digitsToNat_append_last (xs : List Char) (c : Char) :
    digitsToNat (xs ++ [c]) = digitsToNat xs * 10 + (c.toNat - 48) := by
  simp [digitsToNat, List.foldl_append]

theorem digitChar_spec (k : Nat) (h : k < 10) :
    (Char.ofNat (48 + k)).isDigit = true ∧ (Char.ofNat (48 + k)).toNat = 48 + k := by
  interval_cases k <;> exact ⟨by decide, by decide⟩

theorem natToDecAux_spec (f : Nat) : ∀ n, n ≤ f →
    digitsToNat (natToDecAux f n) = n ∧
    (∀ c ∈ natToDecAux f n, c.isDigit = true) ∧
    (n ≠ 0 → natToDecAux f n ≠ []) := by
  induction f with
  | zero =>
    intro n hn
    interval_cases n
    exact ⟨rfl, by simp [natToDecAux], by simp⟩
  | succ f ih =>
    intro n hn
    by_cases h0 : n = 0
    · subst h0
      refine ⟨?_, ?_, ?_⟩ <;> simp [natToDecAux, digitsToNat]
    · have hrec := ih (n / 10) (by omega)
      have hd := digitChar_spec (n % 10) (Nat.mod_lt _ (by norm_num))
      have heq : natToDecAux (f + 1) n =
          natToDecAux f (n / 10) ++ [Char.ofNat (48 + n % 10)] := by
        simp [natToDecAux, h0]
      refine ⟨?_, ?_, ?_⟩
      · rw [heq, digitsToNat_append_last, hrec.1, hd.2]
        omega
      · intro c hc
        rw [heq] at hc
        rcases List.mem_append.mp hc with hc1 | hc1
        · exact hrec.2.1 c hc1
        · rw [List.mem_singleton.mp hc1]
          exact hd.1
      · intro _
        rw [heq]
        simp

theorem natToDec_spec (n : Nat) :
    digitsToNat (natToDec n).data = n ∧ (natToDec n).data ≠ [] ∧
    (∀ c ∈ (natToDec n).data, c.isDigit = true) := by
  by_cases h0 : n = 0
  · subst h0
    refine ⟨rfl, by decide, ?_⟩
    intro c hc
    simp [natToDec] at hc
    subst hc
    decide
  · have hs := natToDecAux_spec (n + 1) n (by omega)
    have hd : (natToDec n).data = natToDecAux (n + 1) n := by
      simp [natToDec, h0]
    rw [hd]
    exact ⟨hs.1, hs.2.2 h0, hs.2.1⟩

theorem intToDec_data_nonneg (i : Int) (h : 0 ≤ i) :
    (intToDec i).data = (natToDec i.natAbs).data := by
  simp [intToDec, show ¬ i < 0 by omega]

theorem intToDec_data_neg (i : Int) (h : i < 0) :
    (intToDec i).data = '-' :: (natToDec i.natAbs).data := by
  simp only [intToDec, if_pos h, String.data_append]
  rfl

/-- Digit lists do not contain a given non-digit character. -/
theorem digits_not_contains (l : List Char) (hd : ∀ c ∈ l, c.isDigit = true)
    (d : Char) (hdd : d.isDigit = false) : l.contains d = false := by
  have hm : d ∉ l := by
    intro hm
    rw [hd d hm] at hdd
    exact Bool.noConfusion hdd
  cases hc : l.contains d with
  | false => rfl
  | true =>
    exact absurd (by simpa using hc) hm

/-- `parseInt` on a rendered digit string. -/
theorem jsParseInt_digits (l : List Char) (hne : l ≠ [])
    (hd : ∀ c ∈ l, c.isDigit = true) :
    jsParseInt ⟨l⟩ = some ((digitsToNat l : Nat) : Int) := by
  unfold jsParseInt
  have htl : jsTrimLeftList l = l :=
    jsTrimLeftList_eq_self l (fun c hc =>
      isDigit_not_ws c (hd c (by cases l with
        | nil => simp at hc
        | cons x t => simp at hc; simp [hc])))
  simp only
  rw [htl]
  cases l with
  | nil => exact absurd rfl hne
  | cons x t =>
    have hx := hd x (by simp)
    have hxm : x ≠ '-' := isDigit_ne x '-' hx (by decide)
    have hxp : x ≠ '+' := isDigit_ne x '+' hx (by decide)
    have hmatch : (match x :: t with
        | '-' :: rest => ((-1 : Int), rest)
        | '+' :: rest => ((1 : Int), rest)
        | _ => ((1 : Int), x :: t)) = ((1 : Int), x :: t) := by
      split
      · rename_i heq
        injection heq with h1 h2
        exact absurd h1 hxm
      · rename_i heq
        injection heq with h1 h2
        exact absurd h1 hxp
      · rfl
    rw [hmatch]
    have hmatch2 : (match ((1 : Int), x :: t).2 with
        | '0' :: 'x' :: rest =>
          let hs := rest.takeWhile hexDigitChar
          if hs.isEmpty then none
          else some (((1 : Int), x :: t).1 * (hexDigitsToNat hs : Int))
        | '0' :: 'X' :: rest =>
          let hs := rest.takeWhile hexDigitChar
          if hs.isEmpty then none
          else some (((1 : Int), x :: t).1 * (hexDigitsToNat hs : Int))
        | r =>
          let ds := r.takeWhile Char.isDigit
          if ds.isEmpty then none
          else some (((1 : Int), x :: t).1 * (digitsToNat ds : Int))) =
        (let ds := (x :: t).takeWhile Char.isDigit
          if ds.isEmpty then none
          else some ((1 : Int) * (digitsToNat ds : Int))) := by
      split
      · rename_i heq
        injection heq with h1 h2
        have hxt : 'x' ∈ t := by rw [h2]; simp
        exact absurd (hd 'x' (by simp [hxt])) (by decide)
      · rename_i heq
        injection heq with h1 h2
        have hXt : 'X' ∈ t := by rw [h2]; simp
        exact absurd (hd 'X' (by simp [hXt])) (by decide)
      · rfl
    rw [hmatch2]
    have htw : (x :: t).takeWhile Char.isDigit = x :: t := by
      rw [List.takeWhile_eq_self_iff]
      exact fun a ha => hd a ha
    simp only [htw]
    rw [if_neg (by simp)]
    simp

/-- `parseInt` on a sign followed by rendered digits. -/
theorem jsParseInt_neg_digits (l : List Char) (hne : l ≠ [])
    (hd : ∀ c ∈ l, c.isDigit = true) :
    jsParseInt ⟨'-' :: l⟩ = some (-(digitsToNat l : Int)) := by
  unfold jsParseInt
  have hws : jsWhitespace '-' = false := by decide
  have htl : jsTrimLeftList ('-' :: l) = '-' :: l := by
    unfold jsTrimLeftList
    simp [List.dropWhile_cons, hws]
  simp only
  rw [htl]
  cases l with
  | nil => exact absurd rfl hne
  | cons x t =>
    have hmatch1 : (match '-' :: x :: t with
        | '-' :: rest => ((-1 : Int), rest)
        | '+' :: rest => ((1 : Int), rest)
        | _ => ((1 : Int), '-' :: x :: t)) = ((-1 : Int), x :: t) := rfl
    rw [hmatch1]
    have hmatch2 : (match ((-1 : Int), x :: t).2 with
        | '0' :: 'x' :: rest =>
          let hs := rest.takeWhile hexDigitChar
          if hs.isEmpty then none
          else some (((-1 : Int), x :: t).1 * (hexDigitsToNat hs : Int))
        | '0' :: 'X' :: rest =>
          let hs := rest.takeWhile hexDigitChar
          if hs.isEmpty then none
          else some (((-1 : Int), x :: t).1 * (hexDigitsToNat hs : Int))
        | r =>
          let ds := r.takeWhile Char.isDigit
          if ds.isEmpty then none
          else some (((-1 : Int), x :: t).1 * (digitsToNat ds : Int))) =
        (let ds := (x :: t).takeWhile Char.isDigit
          if ds.isEmpty then none
          else some ((-1 : Int) * (digitsToNat ds : Int))) := by
      split
      · rename_i heq
        injection heq with h1 h2
        have hxt : 'x' ∈ t := by rw [h2]; simp
        exact absurd (hd 'x' (by simp [hxt])) (by decide)
      · rename_i heq
        injection heq with h1 h2
        have hXt : 'X' ∈ t := by rw [h2]; simp
        exact absurd (hd 'X' (by simp [hXt])) (by decide)
      · rfl
    rw [hmatch2]
    have htw : (x :: t).takeWhile Char.isDigit = x :: t := by
      rw [List.takeWhile_eq_self_iff]
      exact fun a ha => hd a ha
    simp only [htw]
    rw [if_neg (by simp)]
    simp

/-- The numeric-literal test accepts a rendered digit string. -/
theorem matchesNumber_digits (l : List Char) (hne : l ≠ [])
    (hd : ∀ c ∈ l, c.isDigit = true) : matchesNumber ⟨l⟩ = true := by
  unfold matchesNumber
  simp only
  cases l with
  | nil => exact absurd rfl hne
  | cons x t =>
    have hx := hd x (by simp)
    have hxm : x ≠ '-' := isDigit_ne x '-' hx (by decide)
    have hmatch : (match x :: t with
        | '-' :: rest => rest
        | l => l) = x :: t := by
      split
      · rename_i heq
        injection heq with h1 h2
        exact absurd h1 hxm
      · rfl
    rw [hmatch]
    have htw : (x :: t).takeWhile Char.isDigit = x :: t := by
      rw [List.takeWhile_eq_self_iff]
      exact fun a ha => hd a ha
    have hdw : (x :: t).dropWhile Char.isDigit = [] := by
      rw [List.dropWhile_eq_nil_iff]
      exact fun a ha => hd a ha
    rw [htw, hdw]
    simp

/-- The numeric-literal test accepts a minus sign followed by digits. -/
theorem matchesNumber_neg_digits (l : List Char) (hne : l ≠ [])
    (hd : ∀ c ∈ l, c.isDigit = true) : matchesNumber ⟨'-' :: l⟩ = true := by
  unfold matchesNumber
  simp only
  have htw : l.takeWhile Char.isDigit = l := by
    rw [List.takeWhile_eq_self_iff]
    exact fun a ha => hd a ha
  have hdw : l.dropWhile Char.isDigit = [] := by
    rw [List.dropWhile_eq_nil_iff]
    exact fun a ha => hd a ha
  rw [htw, hdw]
  simp [hne]

/-- A string literal with an explicit character list differs from a
token whose first character differs. -/
theorem mk_ne_token (l : List Char) (c : Char) (t : List Char)
    (h : l.head? ≠ some c) : (⟨l⟩ : String) ≠ (⟨c :: t⟩ : String) := by
  intro he
  rw [str_mk_eq_iff] at he
  subst he
  exact h rfl

/-- Lists all of whose characters satisfy `p` do not contain a
character violating `p`. -/
theorem not_contains_of_all (l : List Char) (p : Char → Bool)
    (hp : ∀ c ∈ l, p c = true) (d : Char) (hd : p d = false) :
    l.contains d = false := by
  have hm : d ∉ l := by
    intro hm
    rw [hp d hm] at hd
    exact Bool.noConfusion hd
  cases hc : l.contains d with
  | false => rfl
  | true => exact absurd (by simpa using hc) hm

/-! ## The scalar round trip -/

/-- `_parsePrimitive` on a trim-stable, unquoted, non-token input reduces
to the numeric test and the raw-string fallback. -/
theorem parsePrimitive_of_plain (s : String)
    (htrim : jsTrimList s.data = s.data)
    (hq : s.data.head? ≠ some '"')
    (ht : s ≠ "true") (hf : s ≠ "false") (hn : s ≠ "null") :
    parsePrimitive s =
      if matchesNumber s then
        (if jsIncludes s '.' then none
         else some (.int ((jsParseInt s).getD 0)))
      else some (.str s) := by
  unfold parsePrimitive
  have hs : jsTrim s = s := by
    unfold jsTrim
    rw [htrim]
  simp only [hs]
  rw [if_neg (fun hand => hq hand.1), if_neg ht, if_neg hf, if_neg hn]

/-- The serialized form of a safe scalar parses back to the same value
(for any fuel: scalars never use the `String(value)` fallback). -/
theorem parsePrimitive_serialized (f : Nat) (v : Node) (h : safeScalar v = true) :
    parsePrimitive (serializePrimitive f v) = some v := by
  cases v with
  | null => rfl
  | bool b => cases b <;> rfl
  | arr xs => simp [safeScalar] at h
  | obj kvs => simp [safeScalar] at h
  | int n =>
    have hnd := natToDec_spec n.natAbs
    have hser : serializePrimitive f (.int n) = intToDec n := rfl
    rw [hser]
    by_cases hneg : n < 0
    · have hdata : (intToDec n).data = '-' :: (natToDec n.natAbs).data :=
        intToDec_data_neg n hneg
      have hdigs := hnd.2.2
      have hne := hnd.2.1
      have hhead : ∀ c, (intToDec n).data.head? = some c → jsWhitespace c = false := by
        intro c hc
        rw [hdata] at hc
        injection hc with hc
        subst hc
        decide
      have hlast : ∀ c, (intToDec n).data.getLast? = some c → jsWhitespace c = false := by
        intro c hc
        rw [hdata, getLast?_cons_of_ne _ _ hne] at hc
        have hcm : c ∈ (natToDec n.natAbs).data := by
          cases hl : (natToDec n.natAbs).data with
          | nil => exact absurd hl hne
          | cons x t =>
            rw [hl] at hc
            exact List.mem_of_mem_getLast? (by simp [hc])
        exact isDigit_not_ws c (hdigs c hcm)
      have heta : intToDec n = (⟨(intToDec n).data⟩ : String) := rfl
      have hheadne : (intToDec n).data.head? = some '-' := by
        rw [hdata]; rfl
      rw [parsePrimitive_of_plain (intToDec n)
        (jsTrimList_eq_self _ hhead hlast)
        (by rw [hheadne]; intro hx; injection hx with hx; exact absurd hx (by decide))
        (by rw [heta, hdata]; exact mk_ne_token _ _ _ (by intro hx; injection hx with hx; exact absurd hx (by decide)))
        (by rw [heta, hdata]; exact mk_ne_token _ _ _ (by intro hx; injection hx with hx; exact absurd hx (by decide)))
        (by rw [heta, hdata]; exact mk_ne_token _ _ _ (by intro hx; injection hx with hx; exact absurd hx (by decide)))]
      have hmn : matchesNumber (intToDec n) = true := by
        rw [heta, hdata]
        exact matchesNumber_neg_digits _ hne hdigs
      rw [if_pos hmn]
      have hdot : jsIncludes (intToDec n) '.' = false := by
        unfold jsIncludes
        rw [hdata]
        have h2 := digits_not_contains _ hdigs '.' (by decide)
        simp only [List.contains_cons, h2]
        decide
      rw [if_neg (by rw [hdot]; exact Bool.noConfusion)]
      have hpi : jsParseInt (intToDec n) = some (-(digitsToNat (natToDec n.natAbs).data : Int)) := by
        rw [heta, hdata]
        exact jsParseInt_neg_digits _ hne hdigs
      rw [hpi]
      simp only [Option.getD_some, Option.some.injEq, Node.int.injEq]
      rw [hnd.1]
      omega
    · have hdata : (intToDec n).data = (natToDec n.natAbs).data :=
        intToDec_data_nonneg n (by omega)
      have hdigs := hnd.2.2
      have hne := hnd.2.1
      have hmemhead : ∀ c, (intToDec n).data.head? = some c → c ∈ (natToDec n.natAbs).data := by
        intro c hc
        rw [hdata] at hc
        cases hl : (natToDec n.natAbs).data with
        | nil => exact absurd hl hne
        | cons x t =>
          rw [hl] at hc
          injection hc with hc
          subst hc
          simp [hl]
      have hhead : ∀ c, (intToDec n).data.head? = some c → jsWhitespace c = false :=
        fun c hc => isDigit_not_ws c (hdigs c (hmemhead c hc))
      have hlast : ∀ c, (intToDec n).data.getLast? = some c → jsWhitespace c = false := by
        intro c hc
        rw [hdata] at hc
        have hcm : c ∈ (natToDec n.natAbs).data :=
          List.mem_of_mem_getLast? (by simp [hc])
        exact isDigit_not_ws c (hdigs c hcm)
      have heta : intToDec n = (⟨(intToDec n).data⟩ : String) := rfl
      have hqne : (intToDec n).data.head? ≠ some '"' := by
        intro hx
        have := hdigs '"' (hmemhead '"' hx)
        exact absurd this (by decide)
      have htokne : ∀ (c : Char) (t : List Char), c.isDigit = false →
          intToDec n ≠ (⟨c :: t⟩ : String) := by
        intro c t hcd
        rw [heta]
        apply mk_ne_token
        intro hx
        have := hdigs c (hmemhead c hx)
        rw [this] at hcd
        exact Bool.noConfusion hcd
      rw [parsePrimitive_of_plain (intToDec n)
        (jsTrimList_eq_self _ hhead hlast) hqne
        (htokne 't' _ (by decide)) (htokne 'f' _ (by decide)) (htokne 'n' _ (by decide))]
      have hmn : matchesNumber (intToDec n) = true := by
        rw [heta, hdata]
        exact matchesNumber_digits _ hne hdigs
      rw [if_pos hmn]
      have hdot : jsIncludes (intToDec n) '.' = false := by
        unfold jsIncludes
        rw [hdata]
        exact digits_not_contains _ hdigs '.' (by decide)
      rw [if_neg (by rw [hdot]; exact Bool.noConfusion)]
      have hpi : jsParseInt (intToDec n) = some ((digitsToNat (natToDec n.natAbs).data : Nat) : Int) := by
        rw [heta, hdata]
        exact jsParseInt_digits _ hne hdigs
      rw [hpi]
      simp only [Option.getD_some, Option.some.injEq, Node.int.injEq]
      rw [hnd.1]
      omega
  | str s =>
    simp only [safeScalar, safeStr, Bool.and_eq_true, Bool.not_eq_true',
      decide_eq_false_iff_not, List.all_eq_true] at h
    obtain ⟨⟨⟨⟨⟨⟨⟨hne, hall⟩, hh⟩, hl⟩, ht⟩, hf⟩, hn⟩, hmn⟩ := h
    have hne' : s.data ≠ [] := by
      intro hx
      rw [hx] at hne
      exact Bool.noConfusion hne
    have hser : serializePrimitive f (.str s) = s := by
      have hc1 : jsIncludes s ',' = false := by
        unfold jsIncludes
        exact not_contains_of_all _ plainChar hall ',' (by decide)
      have hc2 : jsIncludes s '\n' = false := by
        unfold jsIncludes
        exact not_contains_of_all _ plainChar hall '\n' (by decide)
      have hc3 : jsIncludes s '"' = false := by
        unfold jsIncludes
        exact not_contains_of_all _ plainChar hall '"' (by decide)
      simp [serializePrimitive, hc1, hc2, hc3]
    rw [hser]
    have hhead : ∀ c, s.data.head? = some c → jsWhitespace c = false := by
      intro c hc
      cases hd : s.data with
      | nil => exact absurd hd hne'
      | cons x t =>
        rw [hd] at hc
        injection hc with hc
        subst hc
        rw [hd] at hh
        exact hh
    have hlast : ∀ c, s.data.getLast? = some c → jsWhitespace c = false := by
      intro c hc
      have hgl : s.data.getLastD ' ' = c := by
        rw [List.getLastD_eq_getLast?, hc]
        rfl
      rw [← hgl]
      simpa using hl
    have hqne : s.data.head? ≠ some '"' := by
      intro hx
      cases hd : s.data with
      | nil => exact absurd hd hne'
      | cons x t =>
        rw [hd] at hx
        injection hx with hx
        have := hall x (by simp [hd])
        rw [hx] at this
        exact absurd this (by decide)
    rw [parsePrimitive_of_plain s (jsTrimList_eq_self _ hhead hlast) hqne ht hf hn]
    rw [if_neg (by rw [show matchesNumber s = false by simpa using hmn]; exact Bool.noConfusion)]

/-! ## Helper lemmas for the line-loop engine -/

theorem contains_true_of_mem {l : List Char} {d : Char} (h : d ∈ l) :
    l.contains d = true := by
  cases hc : l.contains d with
  | true => rfl
  | false =>
    have : d ∉ l := by simpa using hc
    exact absurd h this

theorem findIdx_append_first (p : Char → Bool) (a : List Char) (x : Char)
    (b : List Char) (ha : ∀ c ∈ a, p c = false) (hx : p x = true) :
    List.findIdx p (a ++ x :: b) = a.length := by
  induction a with
  | nil => simp [List.findIdx_cons, hx]
  | cons c t ih =>
    have hc := ha c (by simp)
    have ht := ih (fun d hd => ha d (by simp [hd]))
    simp [List.findIdx_cons, hc, ht]

theorem getD_at_len {α : Type} [Inhabited α] (pre : List α) (x : α) (rest : List α)
    (d : α) : (pre ++ x :: rest).getD pre.length d = x := by
  induction pre with
  | nil => rfl
  | cons c t ih => simpa using ih

theorem head?_append_left {α : Type} (a b : List α) (h : a ≠ []) :
    (a ++ b).head? = a.head? := by
  cases a with
  | nil => exact absurd rfl h
  | cons x t => rfl

theorem jsSubstring_nat (s : String) (a b : Nat) (hab : a ≤ b)
    (hb : b ≤ s.data.length) :
    jsSubstring s (a : Int) (b : Int) = ⟨(s.data.drop a).take (b - a)⟩ := by
  unfold jsSubstring
  have h1 : (max 0 (min (a : Int) (s.data.length : Int))).toNat = a := by omega
  have h2 : (max 0 (min (b : Int) (s.data.length : Int))).toNat = b := by omega
  simp only [h1, h2, Nat.min_eq_left hab, Nat.max_eq_right hab]

theorem objInsert_fresh (acc : List (String × Node)) (k : String) (v : Node)
    (h : k ∉ acc.map Prod.fst) : objInsert acc k v = acc ++ [(k, v)] := by
  unfold objInsert
  have hany : acc.any (fun kv => kv.1 = k) = false := by
    cases ha : acc.any (fun kv => kv.1 = k) with
    | false => rfl
    | true =>
      rw [List.any_eq_true] at ha
      obtain ⟨kv, hkv, he⟩ := ha
      rw [decide_eq_true_eq] at he
      exact absurd (he ▸ List.mem_map_of_mem Prod.fst hkv) h
  rw [hany]
  simp

/-- A safe scalar's rendered token never triggers the keep-dropping. -/
theorem keep_of_safe (v : Node) (h : safeScalar v = true) : isEmptyStr v = false := by
  cases v with
  | str s =>
    simp only [safeScalar, safeStr, Bool.and_eq_true, Bool.not_eq_true'] at h
    simp only [isEmptyStr]
    exact h.1.1.1.1.1.1.1
  | null => rfl
  | bool b => rfl
  | int n => rfl
  | arr xs => simp [safeScalar] at h
  | obj kvs => simp [safeScalar] at h

/-- All characters of a rendered integer are digits or a minus sign. -/
theorem intToDec_chars (n : Int) :
    ∀ c ∈ (intToDec n).data, (c.isDigit || c = '-') = true := by
  intro c hc
  have hnd := natToDec_spec n.natAbs
  by_cases hneg : n < 0
  · rw [intToDec_data_neg n hneg] at hc
    rcases List.mem_cons.mp hc with hc1 | hc1
    · subst hc1; decide
    · simp [hnd.2.2 c hc1]
  · rw [intToDec_data_nonneg n (by omega)] at hc
    simp [hnd.2.2 c hc]

/-- Facts about a safe scalar's rendered token: nonempty, no whitespace
at either end, and no newline, carriage return or comma anywhere. -/
theorem sv_facts (v : Node) (h : safeScalar v = true) :
    (serializePrimitive 0 v).data ≠ [] ∧
    (∀ c, (serializePrimitive 0 v).data.head? = some c → jsWhitespace c = false) ∧
    (∀ c, (serializePrimitive 0 v).data.getLast? = some c → jsWhitespace c = false) ∧
    (serializePrimitive 0 v).data.contains '\n' = false := by
  cases v with
  | null =>
    refine ⟨by decide, ?_, ?_, by decide⟩ <;>
      (intro c hc; injection hc with hc; subst hc; decide)
  | bool b =>
    cases b
    · refine ⟨by decide, ?_, ?_, by decide⟩ <;>
        (intro c hc; injection hc with hc; subst hc; decide)
    · refine ⟨by decide, ?_, ?_, by decide⟩ <;>
        (intro c hc; injection hc with hc; subst hc; decide)
  | int n =>
    have hnd := natToDec_spec n.natAbs
    have hchars := intToDec_chars n
    have hne : (intToDec n).data ≠ [] := by
      by_cases hneg : n < 0
      · rw [intToDec_data_neg n hneg]; simp
      · rw [intToDec_data_nonneg n (by omega)]; exact hnd.2.1
    have hser : serializePrimitive 0 (.int n) = intToDec n := rfl
    rw [hser]
    have hws : ∀ c ∈ (intToDec n).data, jsWhitespace c = false := by
      intro c hc
      rcases Bool.or_eq_true _ _ |>.mp (hchars c hc) with h1 | h1
      · exact isDigit_not_ws c h1
      · rw [decide_eq_true_eq] at h1
        subst h1
        decide
    refine ⟨hne, ?_, ?_, ?_⟩
    · intro c hc
      cases hd : (intToDec n).data with
      | nil => exact absurd hd hne
      | cons x t =>
        rw [hd] at hc
        injection hc with hc
        exact hws c (by rw [hd, ← hc]; simp)
    · intro c hc
      exact hws c (List.mem_of_mem_getLast? (by simp [hc]))
    · exact not_contains_of_all _ (fun c => c.isDigit || c = '-') hchars '\n' (by decide)
  | str s =>
    simp only [safeScalar, safeStr, Bool.and_eq_true, Bool.not_eq_true',
      decide_eq_false_iff_not, List.all_eq_true] at h
    obtain ⟨⟨⟨⟨⟨⟨⟨hne, hall⟩, hh⟩, hl⟩, _⟩, _⟩, _⟩, _⟩ := h
    have hne' : s.data ≠ [] := by
      intro hx; rw [hx] at hne; exact Bool.noConfusion hne
    have hser : serializePrimitive 0 (.str s) = s := by
      have hc1 : jsIncludes s ',' = false := by
        unfold jsIncludes
        exact not_contains_of_all _ plainChar hall ',' (by decide)
      have hc2 : jsIncludes s '\n' = false := by
        unfold jsIncludes
        exact not_contains_of_all _ plainChar hall '\n' (by decide)
      have hc3 : jsIncludes s '"' = false := by
        unfold jsIncludes
        exact not_contains_of_all _ plainChar hall '"' (by decide)
      simp [serializePrimitive, hc1, hc2, hc3]
    rw [hser]
    refine ⟨hne', ?_, ?_, not_contains_of_all _ plainChar hall '\n' (by decide)⟩
    · intro c hc
      cases hd : s.data with
      | nil => exact absurd hd hne'
      | cons x t =>
        rw [hd] at hc hh
        injection hc with hc
        subst hc
        exact hh
    · intro c hc
      have : s.data.getLastD ' ' = c := by
        rw [List.getLastD_eq_getLast?, hc]; rfl
      rw [← this]
      exact hl
  | arr xs => simp [safeScalar] at h
  | obj kvs => simp [safeScalar] at h

theorem flatLine_data (kv : String × Node) :
    (flatLine kv).data =
      kv.1.data ++ ':' :: ' ' :: (serializePrimitive 0 kv.2).data := by
  unfold flatLine
  rw [String.data_append, String.data_append]
  simp

/-- The conjuncts of a safe key, unpacked. -/
theorem safeKey_facts (k : String) (h : safeKey k = true) :
    k.data ≠ [] ∧ (∀ c ∈ k.data, keyChar c = true) ∧
    (∀ c, k.data.head? = some c → jsWhitespace c = false) ∧
    (∀ c, k.data.getLast? = some c → jsWhitespace c = false) := by
  simp only [safeKey, Bool.and_eq_true, Bool.not_eq_true', List.all_eq_true] at h
  obtain ⟨⟨⟨⟨hne, hall⟩, hh⟩, hl⟩, _⟩ := h
  have hne' : k.data ≠ [] := by
    intro hx; rw [hx] at hne; exact Bool.noConfusion hne
  refine ⟨hne', hall, ?_, ?_⟩
  · intro c hc
    cases hd : k.data with
    | nil => exact absurd hd hne'
    | cons x t =>
      rw [hd] at hc hh
      injection hc with hc
      subst hc
      exact hh
  · intro c hc
    have : k.data.getLastD ' ' = c := by
      rw [List.getLastD_eq_getLast?, hc]; rfl
    rw [← this]
    exact hl

/-- An empty-string value renders as the empty token. -/
theorem serializePrimitive_emptyStr (v : Node) (h : isEmptyStr v = true) :
    (serializePrimitive 0 v).data = [] := by
  cases v with
  | str s =>
    simp only [isEmptyStr, List.isEmpty_iff] at h
    have : serializePrimitive 0 (.str s) = s := by
      simp [serializePrimitive, jsIncludes, h]
    rw [this, h]
  | null => simp [isEmptyStr] at h
  | bool b => simp [isEmptyStr] at h
  | int n => simp [isEmptyStr] at h
  | arr xs => simp [isEmptyStr] at h
  | obj kvs => simp [isEmptyStr] at h

/-- A list not containing a character reports `contains` false. -/
theorem contains_false_of_not_mem {l : List Char} {d : Char} (h : d ∉ l) :
    l.contains d = false := by
  cases hc : l.contains d with
  | false => rfl
  | true => exact absurd (by simpa using hc) h

/-- A line whose first character is not whitespace has indent 0. -/
theorem indentOf_zero (l : String)
    (h : ∀ c, l.data.head? = some c → jsWhitespace c = false) : indentOf l = 0 := by
  unfold indentOf jsLength jsTrimStart
  rw [jsTrimLeftList_eq_self _ h]
  simp

/-- Shape facts about a flat entry's serialized line and its trimmed
form. -/
theorem flatLine_facts (kv : String × Node) (hok : entryOk kv = true) :
    (∀ c, (flatLine kv).data.head? = some c → jsWhitespace c = false) ∧
    (flatLine kv).data.contains '\n' = false ∧
    jsTrimRightList (flatLine kv).data = trimmedData kv ∧
    jsTrimList (flatLine kv).data = trimmedData kv ∧
    jsTrimList (trimmedData kv) = trimmedData kv ∧
    trimmedData kv ≠ [] ∧
    (∀ c, (trimmedData kv).head? = some c → jsWhitespace c = false) := by
  obtain ⟨k, v⟩ := kv
  simp only [entryOk, Bool.and_eq_true, Bool.or_eq_true] at hok
  obtain ⟨hks, hv⟩ := hok
  obtain ⟨hkne, hkall, hkh, hkl⟩ := safeKey_facts k hks
  have hdata := flatLine_data (k, v)
  simp only at hdata
  have hhead : ∀ c, (flatLine (k, v)).data.head? = some c → jsWhitespace c = false := by
    intro c hc
    rw [hdata, head?_append_left _ _ hkne] at hc
    exact hkh c hc
  rcases hv with hss | hemp
  · -- safe scalar value
    obtain ⟨svne, svh, svl, svnl⟩ := sv_facts v hss
    have htd : trimmedData (k, v) =
        k.data ++ ':' :: ' ' :: (serializePrimitive 0 v).data := by
      unfold trimmedData
      rw [if_neg (by rw [keep_of_safe v hss]; exact Bool.noConfusion)]
    have hlast : ∀ c, (flatLine (k, v)).data.getLast? = some c →
        jsWhitespace c = false := by
      intro c hc
      rw [hdata, List.getLast?_append_of_ne_nil _ (by simp),
        getLast?_cons_of_ne _ _ (by simp [svne]), getLast?_cons_of_ne _ _ svne] at hc
      exact svl c hc
    have hrt : jsTrimRightList (flatLine (k, v)).data = trimmedData (k, v) := by
      rw [jsTrimRightList_eq_self _ hlast, hdata, htd]
    have hnl : (flatLine (k, v)).data.contains '\n' = false := by
      apply contains_false_of_not_mem
      intro hm
      rw [hdata] at hm
      rcases List.mem_append.mp hm with hm1 | hm1
      · have := hkall '\n' hm1
        exact absurd this (by decide)
      · rcases List.mem_cons.mp hm1 with hm2 | hm2
        · exact absurd hm2 (by decide)
        · rcases List.mem_cons.mp hm2 with hm3 | hm3
          · exact absurd hm3 (by decide)
          · exact absurd (contains_true_of_mem hm3)
              (by rw [svnl]; exact Bool.noConfusion)
    refine ⟨hhead, hnl, hrt, ?_, ?_, ?_, ?_⟩
    · unfold jsTrimList
      rw [jsTrimLeftList_eq_self _ hhead, hrt]
    · have htf : trimmedData (k, v) = (flatLine (k, v)).data := by rw [htd, hdata]
      unfold jsTrimList
      rw [htf, jsTrimLeftList_eq_self _ hhead, jsTrimRightList_eq_self _ hlast]
    · rw [htd]
      intro hx
      exact hkne (by cases hk : k.data <;> rw [hk] at hx <;> simp at hx ⊢)
    · intro c hc
      rw [htd, head?_append_left _ _ hkne] at hc
      exact hkh c hc
  · -- empty-string value
    have hsv := serializePrimitive_emptyStr v hemp
    have hdata2 : (flatLine (k, v)).data = k.data ++ [':', ' '] := by
      rw [hdata, hsv]
    have htd : trimmedData (k, v) = k.data ++ [':'] := by
      unfold trimmedData
      rw [if_pos hemp]
    have hrt : jsTrimRightList (flatLine (k, v)).data = trimmedData (k, v) := by
      rw [hdata2, htd]
      exact jsTrimRightList_append_ws _ _ _ (by decide) (by decide)
    have htdlast : ∀ c, (trimmedData (k, v)).getLast? = some c →
        jsWhitespace c = false := by
      intro c hc
      rw [htd, List.getLast?_append_of_ne_nil _ (by simp)] at hc
      injection hc with hc
      subst hc
      decide
    have htdhead : ∀ c, (trimmedData (k, v)).head? = some c →
        jsWhitespace c = false := by
      intro c hc
      rw [htd, head?_append_left _ _ hkne] at hc
      exact hkh c hc
    have hnl : (flatLine (k, v)).data.contains '\n' = false := by
      apply contains_false_of_not_mem
      intro hm
      rw [hdata2] at hm
      rcases List.mem_append.mp hm with hm1 | hm1
      · have := hkall '\n' hm1
        exact absurd this (by decide)
      · rcases List.mem_cons.mp hm1 with hm2 | hm2
        · exact absurd hm2 (by decide)
        · rcases List.mem_cons.mp hm2 with hm3 | hm3
          · exact absurd hm3 (by decide)
          · simp at hm3
    refine ⟨hhead, hnl, hrt, ?_, ?_, ?_, htdhead⟩
    · unfold jsTrimList
      rw [jsTrimLeftList_eq_self _ hhead, hrt]
    · unfold jsTrimList
      rw [jsTrimLeftList_eq_self _ htdhead, jsTrimRightList_eq_self _ htdlast]
    · rw [htd]
      intro hx
      exact hkne (by cases hk : k.data <;> rw [hk] at hx <;> simp at hx ⊢)

/-- What the parser sees of a flat entry's line, in either of its two
`LineOf` shapes. -/
theorem lineOf_facts (kv : String × Node) (l : String) (hok : entryOk kv = true)
    (hl : LineOf kv l) :
    indentOf l = 0 ∧ jsTrim l = (⟨trimmedData kv⟩ : String) ∧ (jsTrim l).data ≠ [] := by
  obtain ⟨fh, _, frt, ftl, ftt, ftne, fth⟩ := flatLine_facts kv hok
  rcases hl with hl1 | hl1
  · subst hl1
    refine ⟨indentOf_zero _ fh, ?_, ?_⟩
    · unfold jsTrim
      rw [ftl]
    · unfold jsTrim
      rw [ftl]
      exact ftne
  · subst hl1
    have hdataeq : (rstrip (flatLine kv)).data = trimmedData kv := frt
    refine ⟨?_, ?_, ?_⟩
    · apply indentOf_zero
      rw [hdataeq]
      exact fth
    · unfold jsTrim
      rw [hdataeq, ftt]
    · unfold jsTrim
      rw [hdataeq, ftt]
      exact ftne

/-- The character conditions a safe key imposes. -/
theorem keyChar_facts (c : Char) (h : keyChar c = true) :
    c ≠ ':' ∧ c ≠ '[' ∧ c ≠ ']' := by
  simp only [keyChar, Bool.or_eq_true, Bool.not_eq_true', Bool.or_eq_false_iff,
    decide_eq_false_iff_not] at h
  exact ⟨h.1.1.1.1.1.1.1.1, h.1.1.1.1.1.1.1.2, h.1.1.1.1.1.1.2⟩

/-- Key and value extraction from the trimmed line of a flat entry:
the line contains a colon, the first colon sits right after the key, the
key part trims to the key, the value part trims to the rendered value,
and the key contains no bracket. -/
theorem lineContent_facts (kv : String × Node) (hok : entryOk kv = true) :
    jsIncludes (⟨trimmedData kv⟩ : String) ':' = true ∧
    jsIndexOf (⟨trimmedData kv⟩ : String) ':' = (kv.1.data.length : Int) ∧
    jsTrim (jsSubstring (⟨trimmedData kv⟩ : String) 0 (kv.1.data.length : Int)) =
      kv.1 ∧
    jsTrim (jsSubstringFrom (⟨trimmedData kv⟩ : String)
      ((kv.1.data.length : Int) + 1)) = serializePrimitive 0 kv.2 ∧
    jsIncludes kv.1 '[' = false := by
  obtain ⟨k, v⟩ := kv
  simp only [entryOk, Bool.and_eq_true, Bool.or_eq_true] at hok
  obtain ⟨hks, hv⟩ := hok
  obtain ⟨hkne, hkall, hkh, hkl⟩ := safeKey_facts k hks
  have hkcolon : ∀ c ∈ k.data, (fun x => decide (x = ':')) c = false := by
    intro c hc
    exact decide_eq_false (keyChar_facts c (hkall c hc)).1
  have hkbr : jsIncludes k '[' = false := by
    unfold jsIncludes
    apply contains_false_of_not_mem
    intro hm
    exact (keyChar_facts '[' (hkall '[' hm)).2.1 rfl
  -- the tail of the trimmed line after the key and colon
  have htd : ∃ tail, trimmedData (k, v) = k.data ++ ':' :: tail ∧
      (tail = [] → (serializePrimitive 0 v).data = []) ∧
      (tail ≠ [] → tail = ' ' :: (serializePrimitive 0 v).data) ∧
      (isEmptyStr v = true → tail = []) := by
    by_cases hemp : isEmptyStr v = true
    · exact ⟨[], by unfold trimmedData; rw [if_pos hemp],
        fun _ => serializePrimitive_emptyStr v hemp, fun hx => absurd rfl hx,
        fun _ => rfl⟩
    · refine ⟨' ' :: (serializePrimitive 0 v).data, ?_, by simp, fun _ => rfl,
        fun hx => absurd hx hemp⟩
      unfold trimmedData
      rw [if_neg hemp]
  obtain ⟨tail, htd, htl0, htl1, htlE⟩ := htd
  have hdata : (⟨trimmedData (k, v)⟩ : String).data = k.data ++ ':' :: tail := by
    simp only
    rw [htd]
  have hfind : List.findIdx (fun x => decide (x = ':')) (trimmedData (k, v)) =
      k.data.length := by
    rw [htd]
    exact findIdx_append_first _ _ _ _ hkcolon (by simp)
  have hmem : (trimmedData (k, v)).contains ':' = true := by
    apply contains_true_of_mem
    rw [htd]
    simp
  refine ⟨hmem, ?_, ?_, ?_, hkbr⟩
  · unfold jsIndexOf
    have hmem' : (⟨trimmedData (k, v)⟩ : String).data.contains ':' = true := hmem
    have hfind' : List.findIdx (fun x => decide (x = ':'))
        (⟨trimmedData (k, v)⟩ : String).data = k.data.length := hfind
    rw [if_pos hmem', hfind']
  · have hsub := jsSubstring_nat (⟨trimmedData (k, v)⟩ : String) 0 k.data.length
      (by omega) (by rw [hdata]; simp)
    rw [show ((0 : Nat) : Int) = (0 : Int) by simp] at hsub
    rw [hsub, hdata]
    have : ((k.data ++ ':' :: tail).drop 0).take (k.data.length - 0) = k.data := by
      rw [List.drop_zero, Nat.sub_zero, List.take_append_eq_append_take,
        List.take_length, Nat.sub_self, List.take_zero, List.append_nil]
    rw [this]
    unfold jsTrim
    simp only
    rw [jsTrimList_eq_self _ hkh hkl]
  · unfold jsSubstringFrom
    have hlen : (⟨trimmedData (k, v)⟩ : String).data.length =
        k.data.length + 1 + tail.length := by
      rw [hdata]
      simp
      omega
    have hcast : ((k.data.length : Int) + 1) = ((k.data.length + 1 : Nat) : Int) := by
      push_cast
      ring
    rw [hcast, hlen]
    have hsub := jsSubstring_nat (⟨trimmedData (k, v)⟩ : String) (k.data.length + 1)
      (k.data.length + 1 + tail.length) (by omega) (by rw [hlen])
    rw [hsub]
    have hdrop : ((⟨trimmedData (k, v)⟩ : String).data.drop (k.data.length + 1)).take
        (k.data.length + 1 + tail.length - (k.data.length + 1)) = tail := by
      rw [hdata, List.drop_append_eq_append_drop,
        List.drop_eq_nil_of_le (by omega)]
      have h1 : k.data.length + 1 - k.data.length = 1 := by omega
      rw [h1]
      simp only [List.nil_append, List.drop_succ_cons, List.drop_zero]
      apply List.take_of_length_le
      omega
    rw [hdrop]
    by_cases htne : tail = []
    · subst htne
      have hsv := htl0 rfl
      unfold jsTrim
      apply String.ext
      simp only [hsv]
      rfl
    · rw [htl1 htne]
      obtain ⟨svne, svh, svl, _⟩ := sv_facts v (by
        rcases hv with h1 | h1
        · exact h1
        · exact absurd (htlE h1) htne)
      unfold jsTrim
      apply String.ext
      show jsTrimList (' ' :: (serializePrimitive 0 v).data) =
        (serializePrimitive 0 v).data
      unfold jsTrimList
      have hlt : jsTrimLeftList (' ' :: (serializePrimitive 0 v).data) =
          (serializePrimitive 0 v).data := by
        unfold jsTrimLeftList
        rw [List.dropWhile_cons]
        rw [show jsWhitespace ' ' = true by decide]
        simp only [if_pos rfl]
        exact jsTrimLeftList_eq_self _ (fun c hc => svh c hc)
      rw [hlt, jsTrimRightList_eq_self _ svl]

/-- The `_parseLines` engine on the serialized lines of a flat mapping:
starting right after `pre`, the loop consumes one line per entry, keeps
exactly the entries with nonempty values (appending them in order), and
stops at the end of input. -/
theorem parseLines_flat (kvs : List (String × Node)) (ls : List String)
    (hfa : List.Forall₂ LineOf kvs ls) :
    ∀ (pre : List String) (obj : List (String × Node)) (fuel : Nat),
    (∀ kv ∈ kvs, entryOk kv = true) →
    (kvs.map Prod.fst).Nodup →
    (∀ kv ∈ kvs, kv.1 ∉ obj.map Prod.fst) →
    kvs.length + 1 ≤ fuel →
    parseLines (pre ++ ls) fuel pre.length 0 obj =
      some (obj ++ kvs.filter keepEntry, (pre ++ ls).length) := by
  induction hfa with
  | nil =>
    intro pre obj fuel _ _ _ hfuel
    obtain ⟨f, rfl⟩ : ∃ f, fuel = f + 1 := ⟨fuel - 1, by omega⟩
    rw [parseLines]
    rw [if_neg (by simp)]
    simp
  | cons hkl hrest ih =>
    rename_i kv l kt lt
    intro pre obj fuel hok hnd hfresh hfuel
    obtain ⟨f, rfl⟩ : ∃ f, fuel = f + 1 := ⟨fuel - 1, by omega⟩
    have hokv := hok kv (by simp)
    obtain ⟨hind, htrim, htne⟩ := lineOf_facts kv l hokv hkl
    obtain ⟨hc1, hc2, hc3, hc4, hc5⟩ := lineContent_facts kv hokv
    have hline : (pre ++ l :: lt).getD pre.length "" = l := getD_at_len pre l lt ""
    have hlt : pre.length < (pre ++ l :: lt).length := by simp
    have htne' : ¬ (jsTrim l).data = [] := htne
    rw [parseLines, if_pos hlt, hline, if_neg htne', hind]
    rw [if_neg (by omega : ¬ (0 : Nat) < 0)]
    rw [if_neg (by omega : ¬ (0 : Nat) > 0)]
    rw [htrim, if_pos hc1, hc2]
    simp only [ne_eq]
    rw [hc3, hc4]
    rw [if_neg (fun hand => by rw [hc5] at hand; exact Bool.noConfusion hand.1)]
    -- split on whether the value is the empty string
    have hokrest : ∀ kv' ∈ kt, entryOk kv' = true :=
      fun kv' hk => hok kv' (by simp [hk])
    have hndrest : (kt.map Prod.fst).Nodup := by
      rw [List.map_cons, List.nodup_cons] at hnd
      exact hnd.2
    have hheadfresh : kv.1 ∉ kt.map Prod.fst := by
      rw [List.map_cons, List.nodup_cons] at hnd
      exact hnd.1
    have hassoc : pre ++ l :: lt = (pre ++ [l]) ++ lt := by simp
    have hlenidx : pre.length + 1 = (pre ++ [l]).length := by simp
    by_cases hemp : isEmptyStr kv.2 = true
    · -- empty-string value: the key is dropped
      have hsv : (serializePrimitive 0 kv.2).data = [] :=
        serializePrimitive_emptyStr kv.2 hemp
      rw [if_pos hsv]
      have hnest : ¬ (pre.length + 1 < (pre ++ l :: lt).length ∧
          indentOf ((pre ++ l :: lt).getD (pre.length + 1) "") > 0) := by
        intro ⟨ha, hb⟩
        cases hrest with
        | nil => simp at ha
        | cons hkl2 hrest2 =>
          rename_i kv2 l2 kt2 lt2
          have hline2 : (pre ++ l :: l2 :: lt2).getD (pre.length + 1) "" = l2 := by
            have := getD_at_len (pre ++ [l]) l2 lt2 ""
            simpa using this
          rw [hline2] at hb
          have hok2 := hokrest kv2 (by simp)
          obtain ⟨hind2, _, _⟩ := lineOf_facts kv2 l2 hok2 hkl2
          omega
      rw [if_neg hnest]
      have hkeep : keepEntry kv = false := by
        unfold keepEntry
        rw [hemp]
        rfl
      have hrec := ih (pre ++ [l]) obj f hokrest hndrest
        (fun kv' hk => hfresh kv' (by simp [hk])) (by simp at hfuel ⊢; omega)
      rw [hassoc, hlenidx]
      rw [hrec]
      rw [List.filter_cons, hkeep]
      simp
    · -- kept value
      have hss : safeScalar kv.2 = true := by
        simp only [entryOk, Bool.and_eq_true, Bool.or_eq_true] at hokv
        rcases hokv.2 with h1 | h1
        · exact h1
        · exact absurd h1 hemp
      obtain ⟨svne, _, _, _⟩ := sv_facts kv.2 hss
      rw [if_neg svne]
      rw [parsePrimitive_serialized 0 kv.2 hss]
      have hins : objInsert obj kv.1 kv.2 = obj ++ [kv] := by
        rw [objInsert_fresh obj kv.1 kv.2 (hfresh kv (by simp))]
      have hkeep : keepEntry kv = true := by
        unfold keepEntry
        rw [keep_of_safe kv.2 hss]
        rfl
      have hrec := ih (pre ++ [l]) (obj ++ [kv]) f hokrest hndrest
        (fun kv' hk => by
          rw [List.map_append]
          intro hm
          rcases List.mem_append.mp hm with hm1 | hm1
          · exact hfresh kv' (by simp [hk]) hm1
          · simp only [List.map_cons, List.map_nil, List.mem_singleton] at hm1
            rw [List.map_cons, List.nodup_cons] at hnd
            exact hnd.1 (hm1 ▸ List.mem_map_of_mem Prod.fst hk))
        (by simp at hfuel ⊢; omega)
      show parseLines (pre ++ l :: lt) f (pre.length + 1) 0
          (objInsert obj kv.1 kv.2) =
        some (obj ++ (kv :: kt).filter keepEntry, (pre ++ l :: lt).length)
      rw [hins, hassoc, hlenidx, hrec, List.filter_cons, hkeep]
      simp

/-! ## The serializer on flat mappings -/

/-- Unfolding `serialize` on a mapping: one line group per entry. -/
theorem serializeAux_objOf (fuel : Nat) (kvs : List (String × Node)) :
    serializeAux 2 (fuel + 1) (.objOf kvs 0) =
      joinSep "\n" (kvs.flatMap (objBranch fuel)) := rfl

/-- An entry with a scalar value contributes exactly its flat line
(independently of fuel). -/
theorem objBranch_prim (fuel : Nat) (kv : String × Node)
    (h : isPrimNode kv.2 = true) : objBranch fuel kv = [flatLine kv] := by
  obtain ⟨k, v⟩ := kv
  cases v <;> first | rfl | (simp [isPrimNode] at h)

/-- A flat entry's value is a primitive. -/
theorem prim_of_entryOk (kv : String × Node) (h : entryOk kv = true) :
    isPrimNode kv.2 = true := by
  simp only [entryOk, Bool.and_eq_true, Bool.or_eq_true] at h
  rcases h.2 with h1 | h1
  · cases hv : kv.2 <;> rw [hv] at h1 <;> first | rfl | (simp [safeScalar] at h1)
  · cases hv : kv.2 <;> rw [hv] at h1 <;> first | rfl | (simp [isEmptyStr] at h1)

/-- A flat mapping's entries each contribute one line. -/
theorem flatMap_objBranch_prim (g : Nat) (kvs : List (String × Node))
    (h : ∀ kv ∈ kvs, isPrimNode kv.2 = true) :
    kvs.flatMap (objBranch g) = kvs.map flatLine := by
  induction kvs with
  | nil => rfl
  | cons kv t ih =>
    rw [List.flatMap_cons, List.map_cons,
      objBranch_prim g kv (h kv (by simp)),
      ih (fun kv' hk => h kv' (by simp [hk]))]
    rfl

/-- `serialize` on a flat mapping is the newline-join of its entry
lines. -/
theorem serializeToon_flat (kvs : List (String × Node))
    (h : ∀ kv ∈ kvs, isPrimNode kv.2 = true) :
    serializeToon (Node.obj kvs) = joinSep "\n" (kvs.map flatLine) := by
  unfold serializeToon serializeWith
  obtain ⟨g, hg⟩ : ∃ g, serFuel (Node.obj kvs) = g + 2 :=
    ⟨2 * nodeWeight (Node.obj kvs), by unfold serFuel; ring⟩
  rw [hg]
  have h1 : serializeAux 2 (g + 1 + 1) (.node (Node.obj kvs) 0) =
      serializeAux 2 (g + 1) (.objOf kvs 0) := rfl
  rw [show g + 2 = g + 1 + 1 from rfl, h1, serializeAux_objOf,
    flatMap_objBranch_prim g kvs h]

/-! ## Trimming and splitting the serialized text -/

/-- Characters survive right-trimming only if present originally. -/
theorem mem_of_mem_jsTrimRightList {c : Char} {l : List Char}
    (h : c ∈ jsTrimRightList l) : c ∈ l := by
  unfold jsTrimRightList at h
  rw [List.mem_reverse] at h
  rw [← List.mem_reverse]
  exact List.Sublist.mem h (List.dropWhile_sublist jsWhitespace)

/-- Membership in `mapLast f` comes from an original element or `f` of
one. -/
theorem mem_mapLast {α : Type} (f : α → α) (ls : List α) (x : α)
    (h : x ∈ mapLast f ls) : x ∈ ls ∨ ∃ y ∈ ls, x = f y := by
  induction ls with
  | nil => simp [mapLast] at h
  | cons a t ih =>
    cases t with
    | nil =>
      simp only [mapLast, List.mem_singleton] at h
      exact Or.inr ⟨a, by simp, h⟩
    | cons b t2 =>
      rw [show mapLast f (a :: b :: t2) = a :: mapLast f (b :: t2) from rfl] at h
      rcases List.mem_cons.mp h with h1 | h1
      · exact Or.inl (by simp [h1])
      · rcases ih h1 with h2 | ⟨y, hy, hxy⟩
        · exact Or.inl (List.mem_cons_of_mem a h2)
        · exact Or.inr ⟨y, List.mem_cons_of_mem a hy, hxy⟩

/-- `mapLast` preserves length and non-emptiness is immediate; lines of
a flat mapping pair up with their entries. -/
theorem lineOf_mapLast (kvs : List (String × Node)) :
    List.Forall₂ LineOf kvs (mapLast rstrip (kvs.map flatLine)) := by
  induction kvs with
  | nil => exact List.Forall₂.nil
  | cons kv t ih =>
    cases t with
    | nil => exact List.Forall₂.cons (Or.inr rfl) List.Forall₂.nil
    | cons kv2 t2 =>
      rw [List.map_cons,
        show mapLast rstrip (flatLine kv :: (kv2 :: t2).map flatLine) =
          flatLine kv :: mapLast rstrip ((kv2 :: t2).map flatLine) from rfl]
      exact List.Forall₂.cons (Or.inl rfl) ih

theorem mapLast_length {α : Type} (f : α → α) (ls : List α) :
    (mapLast f ls).length = ls.length := by
  induction ls with
  | nil => rfl
  | cons a t ih =>
    cases t with
    | nil => rfl
    | cons b t2 => simpa [mapLast] using ih

/-- Right-trimming the joined text right-trims exactly its last line. -/
theorem jsTrimRightList_joinSep (ls : List String) (hne : ls ≠ [])
    (hrt : ∀ l ∈ ls, jsTrimRightList l.data ≠ []) :
    jsTrimRightList (joinSep "\n" ls).data =
      (joinSep "\n" (mapLast rstrip ls)).data ∧
    jsTrimRightList (joinSep "\n" ls).data ≠ [] := by
  induction ls with
  | nil => exact absurd rfl hne
  | cons a t ih =>
    cases t with
    | nil =>
      refine ⟨rfl, ?_⟩
      exact hrt a (by simp)
    | cons b t2 =>
      have iht := ih (by simp) (fun l hl => hrt l (by simp [hl]))
      have hj : (joinSep "\n" (a :: b :: t2)).data =
          (a.data ++ ['\n']) ++ (joinSep "\n" (b :: t2)).data := rfl
      constructor
      · rw [hj, jsTrimRightList_append _ _ iht.2, iht.1]
        have hne2 : mapLast rstrip (b :: t2) ≠ [] := by
          intro hx
          have hlen := mapLast_length rstrip (b :: t2)
          rw [hx] at hlen
          simp at hlen
        rw [show mapLast rstrip (a :: b :: t2) = a :: mapLast rstrip (b :: t2)
          from rfl]
        cases hml : mapLast rstrip (b :: t2) with
        | nil => exact absurd hml hne2
        | cons c t3 =>
          have hj2 : (joinSep "\n" (a :: c :: t3)).data =
              (a.data ++ ['\n']) ++ (joinSep "\n" (c :: t3)).data := rfl
          rw [hj2]
      · rw [hj, jsTrimRightList_append _ _ iht.2]
        simp

/-- Splitting a join of newline-free lines recovers the lines. -/
theorem flatten_split_id (ls : List String)
    (h : ∀ l ∈ ls, splitChar '\n' l.data = [l.data]) :
    ((ls.map (fun s => splitChar '\n' s.data)).flatten).map String.mk = ls := by
  induction ls with
  | nil => rfl
  | cons a t ih =>
    rw [List.map_cons, h a (by simp), List.flatten_cons, List.singleton_append,
      List.map_cons, ih (fun l hl => h l (by simp [hl]))]

/-- Trimming and splitting the serialized flat text yields the entry
lines with the last one right-trimmed. -/
theorem split_trim_flat (kvs : List (String × Node)) (hne : kvs ≠ [])
    (hok : ∀ kv ∈ kvs, entryOk kv = true) :
    jsSplit (jsTrim (joinSep "\n" (kvs.map flatLine))) '\n' =
      mapLast rstrip (kvs.map flatLine) := by
  have hlne : kvs.map flatLine ≠ [] := by
    intro hx
    rw [← List.map_eq_nil_iff.mp hx] at hne
    exact hne rfl
  have hrtne : ∀ l ∈ kvs.map flatLine, jsTrimRightList l.data ≠ [] := by
    intro l hl
    obtain ⟨kv, hkv, rfl⟩ := List.mem_map.mp hl
    obtain ⟨_, _, hrt, _, _, ftne, _⟩ := flatLine_facts kv (hok kv hkv)
    rw [hrt]
    exact ftne
  have hfldne : ∀ kv ∈ kvs, (flatLine kv).data ≠ [] := by
    intro kv _
    rw [flatLine_data]
    simp
  have hheadok : ∀ c, (joinSep "\n" (kvs.map flatLine)).data.head? = some c →
      jsWhitespace c = false := by
    intro c hc
    cases hm : kvs.map flatLine with
    | nil => exact absurd hm hlne
    | cons a t =>
      obtain ⟨kv, hkv, hfa⟩ : ∃ kv ∈ kvs, flatLine kv = a := by
        have : a ∈ kvs.map flatLine := by rw [hm]; simp
        obtain ⟨kv, h1, h2⟩ := List.mem_map.mp this
        exact ⟨kv, h1, h2⟩
      obtain ⟨fh, _, _, _, _, _, _⟩ := flatLine_facts kv (hok kv hkv)
      rw [hfa] at fh
      have hane : a.data ≠ [] := by
        rw [← hfa]
        exact hfldne kv hkv
      apply fh
      rw [hm] at hc
      cases t with
      | nil => exact hc
      | cons b t2 =>
        rw [show joinSep "\n" (a :: b :: t2) = a ++ "\n" ++ joinSep "\n" (b :: t2)
          from rfl, String.data_append, String.data_append,
          List.append_assoc, head?_append_left _ _ hane] at hc
        exact hc
  have hrt := jsTrimRightList_joinSep (kvs.map flatLine) hlne hrtne
  have htrim : jsTrim (joinSep "\n" (kvs.map flatLine)) =
      joinSep "\n" (mapLast rstrip (kvs.map flatLine)) := by
    apply String.ext
    show jsTrimList (joinSep "\n" (kvs.map flatLine)).data =
      (joinSep "\n" (mapLast rstrip (kvs.map flatLine))).data
    unfold jsTrimList
    rw [jsTrimLeftList_eq_self _ hheadok]
    exact hrt.1
  rw [htrim]
  have hnel : mapLast rstrip (kvs.map flatLine) ≠ [] := by
    intro hx
    have := mapLast_length rstrip (kvs.map flatLine)
    rw [hx] at this
    exact hlne (List.length_eq_zero.mp this.symm)
  rw [jsSplit_joinSep _ hnel]
  apply flatten_split_id
  intro l hl
  apply splitChar_no_sep
  rcases mem_mapLast _ _ _ hl with h1 | ⟨y, hy, rfl⟩
  · obtain ⟨kv, hkv, rfl⟩ := List.mem_map.mp h1
    exact (flatLine_facts kv (hok kv hkv)).2.1
  · obtain ⟨kv, hkv, rfl⟩ := List.mem_map.mp hy
    apply contains_false_of_not_mem
    intro hm
    have h2 := mem_of_mem_jsTrimRightList hm
    have h3 := (flatLine_facts kv (hok kv hkv)).2.1
    exact absurd (contains_true_of_mem h2) (by rw [h3]; exact Bool.noConfusion)

/-! ## The round-trip theorems (C1, C10) -/

/-- The raw (untrimmed) serialized flat text splits into exactly the
entry lines. -/
theorem split_serialized_flat (kvs : List (String × Node)) (hne : kvs ≠ [])
    (hok : ∀ kv ∈ kvs, entryOk kv = true) :
    jsSplit (serializeToon (Node.obj kvs)) '\n' = kvs.map flatLine := by
  have hprim : ∀ kv ∈ kvs, isPrimNode kv.2 = true :=
    fun kv hk => prim_of_entryOk kv (hok kv hk)
  have hlne : kvs.map flatLine ≠ [] := by
    intro hx
    rw [← List.map_eq_nil_iff.mp hx] at hne
    exact hne rfl
  rw [serializeToon_flat kvs hprim, jsSplit_joinSep _ hlne]
  apply flatten_split_id
  intro l hl
  apply splitChar_no_sep
  obtain ⟨kv, hkv, rfl⟩ := List.mem_map.mp hl
  exact (flatLine_facts kv (hok kv hkv)).2.1

/-- The parse of the serialized flat text keeps exactly the entries
with nonempty values, in order. -/
theorem parseToon_serializeToon_flat (kvs : List (String × Node))
    (hok : ∀ kv ∈ kvs, entryOk kv = true)
    (hnd : (kvs.map Prod.fst).Nodup) :
    parseToon (serializeToon (Node.obj kvs)) =
      some (Node.obj (kvs.filter keepEntry)) := by
  by_cases hne : kvs = []
  · subst hne
    rfl
  · have hprim : ∀ kv ∈ kvs, isPrimNode kv.2 = true :=
      fun kv hk => prim_of_entryOk kv (hok kv hk)
    unfold parseToon
    rw [serializeToon_flat kvs hprim, split_trim_flat kvs hne hok]
    have hfa := lineOf_mapLast kvs
    have hlen : (mapLast rstrip (kvs.map flatLine)).length = kvs.length := by
      rw [mapLast_length, List.length_map]
    have hfuel : kvs.length + 1 ≤
        ((mapLast rstrip (kvs.map flatLine)).length + 2) *
          ((mapLast rstrip (kvs.map flatLine)).length + 2) := by
      rw [hlen]
      calc kvs.length + 1 ≤ kvs.length + 2 := by omega
      _ ≤ (kvs.length + 2) * (kvs.length + 2) :=
        Nat.le_mul_of_pos_left _ (by omega)
    have heng := parseLines_flat kvs (mapLast rstrip (kvs.map flatLine)) hfa
      [] [] (((mapLast rstrip (kvs.map flatLine)).length + 2) *
        ((mapLast rstrip (kvs.map flatLine)).length + 2))
      hok hnd (by simp) hfuel
    simp only [List.nil_append, List.length_nil] at heng
    simp only [heng, Option.map_some']

/-- C1 amended: the round trip holds on the unambiguous flat fragment —
a top-level mapping with unique safe keys whose values are safe scalars
(null, booleans, safe-range integers, and nonempty unambiguous strings):
`parse(serialize(x)) == x`.  Outside this fragment the claim fails: the
parser always returns a mapping (see the top-level-scalar
counterexample), and empty-string values are dropped. -/
theorem toon_roundtrip_flat (kvs : List (String × Node))
    (hok : ∀ kv ∈ kvs, safeKey kv.1 = true ∧ safeScalar kv.2 = true)
    (hnd : (kvs.map Prod.fst).Nodup) :
    parseToon (serializeToon (Node.obj kvs)) = some (Node.obj kvs) := by
  have hok' : ∀ kv ∈ kvs, entryOk kv = true := by
    intro kv hk
    unfold entryOk
    rw [(hok kv hk).1, (hok kv hk).2]
    rfl
  rw [parseToon_serializeToon_flat kvs hok' hnd]
  have hfilter : kvs.filter keepEntry = kvs := by
    apply List.filter_eq_self.mpr
    intro kv hk
    unfold keepEntry
    rw [keep_of_safe kv.2 (hok kv hk).2]
    rfl
  rw [hfilter]

/-- Witness for `toon_roundtrip_flat` on a four-entry mapping covering
all scalar kinds. -/
theorem toon_roundtrip_flat_witness :
    (∀ kv ∈ ([("name", Node.str "John"), ("age", Node.int 30),
        ("ok", Node.bool true), ("note", Node.null)] : List (String × Node)),
      safeKey kv.1 = true ∧ safeScalar kv.2 = true) ∧
    (([("name", Node.str "John"), ("age", Node.int 30), ("ok", Node.bool true),
        ("note", Node.null)] : List (String × Node)).map Prod.fst).Nodup ∧
    parseToon (serializeToon (Node.obj [("name", Node.str "John"),
        ("age", Node.int 30), ("ok", Node.bool true), ("note", Node.null)])) =
      some (Node.obj [("name", Node.str "John"), ("age", Node.int 30),
        ("ok", Node.bool true), ("note", Node.null)]) :=
  ⟨by decide, by decide,
    toon_roundtrip_flat _ (by decide) (by decide)⟩

/-- C10: a mapping entry whose value is the empty string serializes as
the line `key: ` (empty value part), and the round trip silently drops
it: the parsed mapping contains every other (kept) entry but that key is
entirely absent. -/
theorem toon_empty_string_dropped (kvs : List (String × Node)) (k0 : String)
    (hok : ∀ kv ∈ kvs, entryOk kv = true)
    (hnd : (kvs.map Prod.fst).Nodup)
    (hmem : (k0, Node.str "") ∈ kvs) :
    (k0 ++ ": ") ∈ jsSplit (serializeToon (Node.obj kvs)) '\n' ∧
    parseToon (serializeToon (Node.obj kvs)) =
      some (Node.obj (kvs.filter keepEntry)) ∧
    k0 ∉ (kvs.filter keepEntry).map Prod.fst := by
  have hne : kvs ≠ [] := by
    intro hx
    rw [hx] at hmem
    simp at hmem
  refine ⟨?_, parseToon_serializeToon_flat kvs hok hnd, ?_⟩
  · rw [split_serialized_flat kvs hne hok]
    have hl0 : flatLine (k0, Node.str "") = k0 ++ ": " := by
      apply String.ext
      rw [flatLine_data]
      simp only [String.data_append]
      rfl
    rw [← hl0]
    exact List.mem_map_of_mem flatLine hmem
  · intro hm
    obtain ⟨kv', hkv', hfst⟩ := List.mem_map.mp hm
    have hkv'mem : kv' ∈ kvs := List.mem_of_mem_filter hkv'
    have hkeep : keepEntry kv' = true := List.of_mem_filter hkv'
    have heq : kv' = (k0, Node.str "") :=
      List.inj_on_of_nodup_map hnd hkv'mem hmem (by rw [hfst])
    rw [heq] at hkeep
    exact Bool.noConfusion hkeep

/-- Witness for `toon_empty_string_dropped` on a two-entry mapping. -/
theorem toon_empty_string_dropped_witness :
    (∀ kv ∈ ([("a", Node.str ""), ("b", Node.int 1)] : List (String × Node)),
      entryOk kv = true) ∧
    (([("a", Node.str ""), ("b", Node.int 1)] : List (String × Node)).map
      Prod.fst).Nodup ∧
    (("a", Node.str "") ∈
      ([("a", Node.str ""), ("b", Node.int 1)] : List (String × Node))) ∧
    (("a" ++ ": ") ∈
      jsSplit (serializeToon (Node.obj [("a", Node.str ""), ("b", Node.int 1)]))
        '\n' ∧
    parseToon (serializeToon (Node.obj [("a", Node.str ""), ("b", Node.int 1)])) =
      some (Node.obj ([("a", Node.str ""), ("b", Node.int 1)].filter keepEntry)) ∧
    "a" ∉ (([("a", Node.str ""), ("b", Node.int 1)] :
      List (String × Node)).filter keepEntry).map Prod.fst) :=
  ⟨by decide, by decide, List.mem_cons_self _ _,
    toon_empty_string_dropped _ "a" (by decide) (by decide)
      (List.mem_cons_self _ _)⟩

end Nexa
